import Mathlib

/-!
# Verification of the `scpi` command-expression engine

Shallow embedding of `src/scpi/__init__.py` (the `scpi-protocol` repository):
the SCPI command-expression analyzer (`min_max_cmd`,
`cmd_expr_to_reg_expr_str`, `cmd_expr_to_reg_expr`), the `Commands`
registry with its abbreviation cache, and the message helpers
(`sanitize_msgs`, `split_line`).

Strings are modelled as `List Char` so that every definition evaluates
inside the kernel.  Python's `str.upper` / `str.islower` are modelled by
`Char.toUpper` / `Char.isLower` (the ASCII behaviour, which is what the
SCPI grammar exercises).  Python's `re` module, applied to the patterns
this library generates, is modelled by a small regular-expression engine
(`RItem`, `parseRegexAux`, `remsS`): literals, groups `(...)`, the
zero-or-one postfix `?`, the end anchor `$`, escapes `\c`, compiled with
`re.IGNORECASE`.  The model refuses (parses to `none`) any construct the
generated patterns cannot be trusted to stay inside (`. | + * [ ] ^` and
braces), mirroring the fact that we only claim fidelity on this fragment.
-/

namespace Scpi

/-- Characters of a Python string. -/
abbrev Str := List Char

/-- Python `s.upper()` (ASCII model). -/
def upperStr (s : Str) : Str := s.map Char.toUpper

/-- Python `s.lstrip(":")`. -/
def lstripColon (s : Str) : Str := s.dropWhile (fun c => c == ':')

/-- Python `s.strip()` (whitespace both ends; ASCII whitespace model). -/
def stripWs (s : Str) : Str :=
  ((s.dropWhile Char.isWhitespace).reverse.dropWhile Char.isWhitespace).reverse

/-- Python `s.strip(";")`. -/
def stripSemi (s : Str) : Str :=
  ((s.dropWhile (fun c => c == ';')).reverse.dropWhile (fun c => c == ';')).reverse

/-- First occurrence of a (non-empty) separator: `some (before, after)`. -/
def findSubAux (sep : Str) : Str → Option (Str × Str)
  | [] => none
  | c :: rest =>
    if sep ≠ [] ∧ sep.isPrefixOf (c :: rest) then
      some ([], (c :: rest).drop sep.length)
    else
      match findSubAux sep rest with
      | none => none
      | some (pre, post) => some (c :: pre, post)

/-- Python `s.split(sep)` for a non-empty separator, by repeatedly cutting at
the first occurrence.  The `fuel` argument keeps the recursion structural;
`s.length + 1` cuts always suffice because each cut consumes at least one
character of the remainder. -/
def splitSepFuel (sep : Str) : Nat → Str → List Str
  | 0, s => [s]
  | fuel + 1, s =>
    match findSubAux sep s with
    | none => [s]
    | some (pre, post) => pre :: splitSepFuel sep fuel post

/-- Python `s.split(sep)` (for non-empty `sep`; `sep = []` returns `[s]`). -/
def splitSep (sep s : Str) : List Str := splitSepFuel sep (s.length + 1) s

/-- Python `sep.join(l)`. -/
def joinSep (sep : Str) : List Str → Str
  | [] => []
  | [s] => s
  | s :: rest => s ++ sep ++ joinSep sep rest

/-! ## The expression analyzer (`min_max_cmd`, `cmd_expr_to_reg_expr_str`) -/

/-- The character loop of `min_max_cmd` building `result_min`: skip lowercase
characters, track the `optional` bracket counter (a Python `int`, so the
skip test is `optional != 0`), emit everything else at bracket depth 0. -/
def minCmdAux : Str → Int → Str
  | [], _ => []
  | c :: cs, optional =>
    if c.isLower then minCmdAux cs optional
    else if c == '[' then minCmdAux cs (optional + 1)
    else if c == ']' then minCmdAux cs (optional - 1)
    else if optional ≠ 0 then minCmdAux cs optional
    else c :: minCmdAux cs optional

/-- `min_max_cmd`: shortest and longest version of a SCPI command expression.
`result_max` is the expression with brackets removed, uppercased; both are
stripped of leading colons. -/
def min_max_cmd (cmd_expr : Str) : Str × Str :=
  (lstripColon (minCmdAux cmd_expr 0),
   lstripColon (upperStr (cmd_expr.filter (fun c => c != '[' && c != ']'))))

/-- The character loop of `cmd_expr_to_reg_expr_str`.  `low_zone` tells
whether a lowercase group `(` is currently open; a non-lowercase character
first closes it with `)?`.  Then `[` opens a group, `]` closes one as
optional, a lowercase letter (upper-cased) extends or opens the lowercase
group, `*` and `:` are emitted escaped, anything else literally. -/
def regBody : Str → Bool → Str
  | [], low_zone => if low_zone then [')', '?'] else []
  | c :: cs, low_zone =>
    if c.isLower then
      (if low_zone then [] else ['(']) ++ (c.toUpper :: regBody cs true)
    else
      (if low_zone then [')', '?'] else []) ++
      (if c == '[' then ['(']
       else if c == ']' then [')', '?']
       else if c == '*' || c == ':' then ['\\', c]
       else [c]) ++ regBody cs false

/-- `cmd_expr_to_reg_expr_str`: the regular-expression string for a SCPI
command expression: `\:?` then the translated body then `$`. -/
def cmd_expr_to_reg_expr_str (cmd_expr : Str) : Str :=
  '\\' :: ':' :: '?' :: (regBody cmd_expr false ++ ['$'])

/-! ## A model of Python `re` on the generated fragment -/

/-- Items of a regular expression in the fragment generated by
`cmd_expr_to_reg_expr_str`: literal characters, groups, zero-or-one
repetition, and the end-of-string anchor `$`. -/
inductive RItem where
  | lit (c : Char) : RItem
  | grp (g : List RItem) : RItem
  | opt (i : RItem) : RItem
  | eol : RItem

/-- Parse a regular-expression string of the modelled fragment.  `cur` is the
reversed item list of the group being read, `stk` the enclosing groups.
`\c` is a literal, `(` opens a group, `)` closes one, a postfix `?` makes
the previous item optional, `$` is the anchor.  Metacharacters outside the
fragment (`. | + * [ ] ^` and braces) are refused, as are stray `)`/`?`,
an unterminated group, and a trailing backslash: the model answers `none`
where Python might do something we do not model (`re.error` included). -/
def parseRegexAux : Str → List RItem → List (List RItem) → Option (List RItem)
  | [], cur, stk =>
    match stk with
    | [] => some cur.reverse
    | _ :: _ => none
  | c :: rest, cur, stk =>
    if c == '\\' then
      match rest with
      | [] => none
      | d :: rest' => parseRegexAux rest' (.lit d :: cur) stk
    else if c == '(' then parseRegexAux rest [] (cur :: stk)
    else if c == ')' then
      match stk with
      | [] => none
      | top :: stk' => parseRegexAux rest (.grp cur.reverse :: top) stk'
    else if c == '?' then
      match cur with
      | [] => none
      | i :: cur' => parseRegexAux rest (.opt i :: cur') stk
    else if c == '$' then parseRegexAux rest (.eol :: cur) stk
    else if c == '.' || c == '|' || c == '+' || c == '*' || c == '[' ||
        c == ']' || c == '^' || c == '\x7b' || c == '\x7d' then none
    else parseRegexAux rest (.lit c :: cur) stk

/-- `re.compile(..., re.IGNORECASE)` of a pattern string, in the modelled
fragment.  `none` models `re.error` (and unmodelled constructs). -/
def compileRegex (pat : Str) : Option (List RItem) := parseRegexAux pat [] []

/-- `cmd_expr_to_reg_expr`: compile the regular expression of a SCPI command
expression (case-insensitive). -/
def cmd_expr_to_reg_expr (cmd_expr : Str) : Option (List RItem) :=
  compileRegex (cmd_expr_to_reg_expr_str cmd_expr)

/-- Case-insensitive character comparison (model of `re.IGNORECASE`). -/
def charIEq (a b : Char) : Bool := a.toUpper == b.toUpper

mutual
/-- All remainders of `s` left after the item consumes a prefix of `s`.
A `lit` consumes one (case-insensitively) equal character, a group behaves
as its sequence, `opt i` behaves as `i` or consumes nothing, and `$`
consumes nothing but requires the remainder to be empty (or a single
trailing newline, as in Python). -/
def remsI : RItem → Str → List Str
  | .lit _, [] => []
  | .lit c, d :: s => if charIEq c d then [s] else []
  | .grp g, s => remsS g s
  | .opt i, s => remsI i s ++ [s]
  | .eol, s => if s = [] ∨ s = ['\n'] then [s] else []

/-- All remainders of `s` left after the item sequence consumes a prefix. -/
def remsS : List RItem → Str → List Str
  | [], s => [s]
  | i :: rest, s => (remsI i s).flatMap (remsS rest)
end

/-- Truthiness of `pattern.match(s)`: the whole item sequence (whose `$`
anchor, when present, is one of the items) consumes a prefix of `s`. -/
def reMatches (items : List RItem) (s : Str) : Bool :=
  !(remsS items s).isEmpty

/-! ## The `Commands` registry -/

/-- The `cmd_info` dict built by `Commands.__setitem__`. -/
structure CmdInfo (β : Type) where
  value : Option β
  re : List RItem
  min_command : Str
  max_command : Str

/-- A Python `dict` as an insertion-ordered association list. -/
def alistFind (k : Str) : List (Str × α) → Option α
  | [] => none
  | (k', v) :: rest => if k = k' then some v else alistFind k rest

/-- `d[k] = v`: replace in place if the key exists, else append (Python
`dict` insertion-order semantics). -/
def alistSet (k : Str) (v : α) : List (Str × α) → List (Str × α)
  | [] => [(k, v)]
  | (k', v') :: rest =>
    if k = k' then (k', v) :: rest else (k', v') :: alistSet k v rest

/-- `d.pop(k)` / `del d[k]`: drop the entry of the key. -/
def alistRemove (k : Str) : List (Str × α) → List (Str × α)
  | [] => []
  | (k', v') :: rest =>
    if k = k' then rest else (k', v') :: alistRemove k rest

/-- The `Commands` registry: the `command_expressions` dict and the
abbreviation cache `_command_cache` (uppercased text ↦ expression). -/
structure Commands (β : Type) where
  command_expressions : List (Str × CmdInfo β)
  command_cache : List (Str × Str)

/-- `Commands()` with no arguments. -/
def Commands.empty : Commands β := ⟨[], []⟩

/-- Python exceptions reaching the registry API: `KeyError(text)` (carrying
the lookup text) and `re.error` from pattern compilation. -/
inductive PyErr where
  | keyError (text : Str)
  | reError
deriving DecidableEq, Repr

/-- `Commands.get_command_expression`: try the cache under the uppercased
text; on a miss scan `command_expressions` in insertion order testing the
original text against each compiled pattern, cache the uppercased text for
the first match and return its expression; raise `KeyError(cmd_name)` when
nothing matches.  Returns the result together with the registry state
after the call. -/
def Commands.get_command_expression (c : Commands β) (cmd_name : Str) :
    Except PyErr Str × Commands β :=
  match alistFind (upperStr cmd_name) c.command_cache with
  | some expr => (.ok expr, c)
  | none =>
    match c.command_expressions.find? (fun p => reMatches p.2.re cmd_name) with
    | some (expr, _) =>
      (.ok expr,
       { c with command_cache := alistSet (upperStr cmd_name) expr c.command_cache })
    | none => (.error (.keyError cmd_name), c)

/-- `Commands.get_command`: resolve the expression, then index
`command_expressions` with it (a stale cache would raise `KeyError` here;
the consistency invariant shows it cannot). -/
def Commands.get_command (c : Commands β) (cmd_name : Str) :
    Except PyErr (CmdInfo β) × Commands β :=
  match c.get_command_expression cmd_name with
  | (.error e, c') => (.error e, c')
  | (.ok expr, c') =>
    match alistFind expr c'.command_expressions with
    | some info => (.ok info, c')
    | none => (.error (.keyError expr), c')

/-- `Commands.__getitem__`: `get_command(name)['value']`. -/
def Commands.getitem (c : Commands β) (cmd_name : Str) :
    Except PyErr (Option β) × Commands β :=
  match c.get_command cmd_name with
  | (.error e, c') => (.error e, c')
  | (.ok info, c') => (.ok info.value, c')

/-- `Commands.get`: `self[cmd_name]`, with `KeyError` turned into the
default. -/
def Commands.get (c : Commands β) (cmd_name : Str) (default : Option β) :
    Option β × Commands β :=
  match c.getitem cmd_name with
  | (.error _, c') => (default, c')
  | (.ok v, c') => (v, c')

/-- `Commands.__contains__`: `self.get(cmd_name) is not None`. -/
def Commands.contains (c : Commands β) (cmd_name : Str) : Bool :=
  (c.get cmd_name none).1.isSome

/-- `Commands.__setitem__`: compute min/max forms, compile the pattern
(`re.error` aborts before anything is stored), store the entry, then
resolve the min and the max form through the lookup path so both end up
cached.  Either resolution can raise `KeyError`; the entry stays stored in
that case (the Python exception propagates after the mutation). -/
def Commands.setitem (c : Commands β) (cmd_expr : Str) (command : Option β) :
    Commands β × Option PyErr :=
  let mm := min_max_cmd cmd_expr
  match cmd_expr_to_reg_expr cmd_expr with
  | none => (c, some .reError)
  | some re =>
    let info : CmdInfo β := ⟨command, re, mm.1, mm.2⟩
    let c1 : Commands β :=
      { c with command_expressions := alistSet cmd_expr info c.command_expressions }
    match c1.get_command_expression mm.1 with
    | (.error e, c2) => (c2, some e)
    | (.ok _, c2) =>
      match c2.get_command_expression mm.2 with
      | (.error e, c3) => (c3, some e)
      | (.ok _, c3) => (c3, none)

/-- `Commands.__delitem__`: pop the expression (`KeyError` if absent, state
unchanged), then purge every cache key the removed entry's pattern
matches — the key alone decides, whatever expression it maps to. -/
def Commands.delitem (c : Commands β) (cmd_expr : Str) :
    Except PyErr Unit × Commands β :=
  match alistFind cmd_expr c.command_expressions with
  | none => (.error (.keyError cmd_expr), c)
  | some info =>
    (.ok (),
     { command_expressions := alistRemove cmd_expr c.command_expressions,
       command_cache :=
         c.command_cache.filter (fun kv => !(reMatches info.re kv.1)) })

/-- `Commands.clear`. -/
def Commands.clearAll (_c : Commands β) : Commands β := ⟨[], []⟩

/-- `Commands.__len__`. -/
def Commands.lenC (c : Commands β) : Nat := c.command_expressions.length

/-- `Commands.keys`. -/
def Commands.keysC (c : Commands β) : List Str := c.command_expressions.map (·.1)

/-- `Commands.update` on another `Commands`: `dict.update` of both the
backing map and the cache. -/
def Commands.updateCommands (c other : Commands β) : Commands β :=
  { command_expressions :=
      other.command_expressions.foldl (fun m kv => alistSet kv.1 kv.2 m)
        c.command_expressions,
    command_cache :=
      other.command_cache.foldl (fun m kv => alistSet kv.1 kv.2 m)
        c.command_cache }

/-- `Commands.update` on a dict / sequence of pairs: `self[k] = v` for each
pair in order; the first exception aborts the loop (mutations so far are
kept, as in Python). -/
def Commands.updateList (c : Commands β) : List (Str × Option β) →
    Commands β × Option PyErr
  | [] => (c, none)
  | (k, v) :: rest =>
    match c.setitem k v with
    | (c', none) => c'.updateList rest
    | (c', some e) => (c', some e)

/-! ## Message helpers (`sanitize_msgs`, `split_line`) -/

/-- Accumulator of the `sanitize_msgs` loops: the flat command and query
lists, the flushed groups (`result`), and the group being accumulated
(`sub_result`). -/
structure SanState where
  commands : List Str
  queries : List Str
  result : List Str
  sub : List Str

/-- One `cmd` of the inner `sanitize_msgs` loop: strip it, drop it if empty,
record it (and as a query if it contains `?`); a query under
`strict_query` flushes the pending group and then itself, anything else
joins the pending group. -/
def sanStep (sep : Str) (strict_query : Bool) (st : SanState) (raw : Str) :
    SanState :=
  let cmd := stripWs raw
  if cmd = [] then st
  else
    let is_query := cmd.any (fun c => c == '?')
    let st :=
      { st with
        commands := st.commands ++ [cmd],
        queries := if is_query then st.queries ++ [cmd] else st.queries }
    if is_query && strict_query then
      { st with
        result :=
          (if st.sub ≠ [] then st.result ++ [joinSep sep st.sub] else st.result)
            ++ [cmd],
        sub := [] }
    else { st with sub := st.sub ++ [cmd] }

/-- One message of the outer `sanitize_msgs` loop: run the inner loop over
the `sep`-separated pieces and flush a pending group at the end of the
message. -/
def sanMsg (sep : Str) (strict_query : Bool) (st : SanState) (msg : Str) :
    SanState :=
  let st1 := (splitSep sep msg).foldl (sanStep sep strict_query)
    { st with sub := [] }
  if st1.sub ≠ [] then
    { st1 with result := st1.result ++ [joinSep sep st1.sub], sub := [] }
  else st1

/-- `sanitize_msgs`: join the messages with `eol`, re-split on `eol`, process
every line, and return the commands, the queries, and the `eol`-joined
groups with a trailing `eol`. -/
def sanitize_msgs (msgs : List Str) (eol sep : Str) (strict_query : Bool) :
    List Str × List Str × Str :=
  let lines := splitSep eol (joinSep eol msgs)
  let st := lines.foldl (sanMsg sep strict_query) ⟨[], [], [], []⟩
  (st.commands, st.queries, joinSep eol st.result ++ eol)

/-- The `Request` namedtuple. -/
structure Request where
  name : Str
  args : Str
  query : Bool
deriving DecidableEq, Repr

/-- Python `s.partition(' ')` (only the two interesting components): split at
the first `' '`; no space means `(s, "")`. -/
def partitionSpace : Str → Str × Str
  | [] => ([], [])
  | c :: rest =>
    if c == ' ' then ([], rest)
    else
      let p := partitionSpace rest
      (c :: p.1, p.2)

/-- `split_line`: strip whitespace and then literal `';'` characters from
both ends of the line, split on `sep`, skip empty pieces; a piece is a
query iff it contains `?` (all `?` are removed), and its name/args are the
parts before/after the first `' '`, both stripped. -/
def split_line (line : Str) (sep : Str) : List Request :=
  let line := stripSemi (stripWs line)
  (splitSep sep line).filterMap fun req_str =>
    if req_str = [] then none
    else
      let query := req_str.any (fun c => c == '?')
      let req_str := req_str.filter (fun c => c != '?')
      let p := partitionSpace req_str
      some ⟨stripWs p.1, stripWs p.2, query⟩

/-- Soundness of the abbreviation cache: every cached key maps to an
expression that is present in the backing map and whose stored pattern
matches the key.  (This is the invariant every reachable registry state
satisfies; the second conjunct is what makes deletion purge all of a
removed expression's keys.) -/
def cacheSound (c : Commands β) : Prop :=
  ∀ k e, (k, e) ∈ c.command_cache →
    ∃ info, alistFind e c.command_expressions = some info ∧
      reMatches info.re k = true

/-- A small registry used to instantiate the registry theorems: the
expressions `ABc` and `AB` (in this insertion order), whose patterns both
match the texts `AB` / `ab` / `:ab`.  The entries are exactly what
`Commands.__setitem__` stores. -/
def wInfoABc : CmdInfo Nat :=
  ⟨some 1, (cmd_expr_to_reg_expr "ABc".data).getD [], "AB".data, "ABC".data⟩

/-- The entry of the expression `AB` in the small witness registry. -/
def wInfoAB : CmdInfo Nat :=
  ⟨some 2, (cmd_expr_to_reg_expr "AB".data).getD [], "AB".data, "AB".data⟩

/-- The small witness registry itself, with an empty cache. -/
def wReg : Commands Nat :=
  ⟨[("ABc".data, wInfoABc), ("AB".data, wInfoAB)], []⟩

/-- Characters of the SCPI command-expression grammar: letters (uppercase
mandatory parts and lowercase abbreviation tails), digits, `':'`, `'*'`
and the optionality brackets. -/
def scpiChar (c : Char) : Bool :=
  c.isAlpha || c.isDigit || c == ':' || c == '*' || c == '[' || c == ']'

/-- Does the bracket depth ever dip below zero (a `']'` with no open `'['`)
when scanning from depth `n`? -/
def dips : Str → Nat → Bool
  | [], _ => false
  | c :: cs, n =>
    if c == '[' then dips cs (n + 1)
    else if c == ']' then n == 0 || dips cs (n - 1)
    else dips cs n

/-- The bracket depth after scanning the whole string from depth `n`
(meaningful when there is no dip). -/
def endDepth : Str → Nat → Nat
  | [], n => n
  | c :: cs, n =>
    if c == '[' then endDepth cs (n + 1)
    else if c == ']' then endDepth cs (n - 1)
    else endDepth cs n

/-- Balanced square brackets: never a `']'` without its `'['`, and every
`'['` closed. -/
def balancedBrackets (s : Str) : Bool := !dips s 0 && endDepth s 0 == 0

/-- What `regBody` emits for one non-lowercase character (after closing a
pending lowercase group): bracket, escaped `*`/`:`, or a literal. -/
def midFor (c : Char) : Str :=
  if c == '[' then ['(']
  else if c == ']' then [')', '?']
  else if c == '*' || c == ':' then ['\\', c]
  else [c]

/-- The registry obtained by inserting `ABc` (payload 1) and then `AB`
(payload 2) into an empty registry.  Inserting `ABc` caches
`AB ↦ ABc` and `ABC ↦ ABc`; inserting `AB` then hits those cache entries,
so its own min/max form stays pointing at `ABc`. -/
def regAB : Commands Nat :=
  (((Commands.empty (β := Nat)).setitem "ABc".data (some 1)).1.setitem
      "AB".data (some 2)).1

/-- Entries are canonically compiled: the stored pattern of every entry of
the backing map is what its expression string compiles to.  Holds in every
reachable state because `__setitem__` alone creates entries. -/
def entriesOk (c : Commands β) : Prop :=
  ∀ e info, (e, info) ∈ c.command_expressions →
    cmd_expr_to_reg_expr e = some info.re

/-- The full registry invariant: canonical entries and a sound cache. -/
def registryInv (c : Commands β) : Prop := entriesOk c ∧ cacheSound c

/-- The registry states reachable through the public operations: the empty
constructor, insertion, the lookup family (which mutates the cache),
deletion, merging with another reachable registry, bulk update from a
pair list, and clearing.  Failed operations leave their (possibly
partially mutated) state, which these constructors also cover. -/
inductive Reachable (β : Type) : Commands β → Prop where
  | empty : Reachable β Commands.empty
  | insert (c : Commands β) (e : Str) (v : Option β) :
      Reachable β c → Reachable β (c.setitem e v).1
  | lookup (c : Commands β) (t : Str) :
      Reachable β c → Reachable β (c.get_command_expression t).2
  | getCmd (c : Commands β) (t : Str) :
      Reachable β c → Reachable β (c.get_command t).2
  | getItem (c : Commands β) (t : Str) :
      Reachable β c → Reachable β (c.getitem t).2
  | getDefault (c : Commands β) (t : Str) (d : Option β) :
      Reachable β c → Reachable β (c.get t d).2
  | remove (c : Commands β) (e : Str) :
      Reachable β c → Reachable β (c.delitem e).2
  | merge (c other : Commands β) :
      Reachable β c → Reachable β other →
      Reachable β (c.updateCommands other)
  | mergeList (c : Commands β) (l : List (Str × Option β)) :
      Reachable β c → Reachable β (c.updateList l).1
  | clear (c : Commands β) : Reachable β c → Reachable β c.clearAll

/-! ## The SCPI expression grammar, for the pattern/min/max theorem -/

/-- A structured SCPI command expression: a sequence of segments, where a
segment is a mandatory character (uppercase letter, digit, `':'` or
`'*'`), a non-empty lowercase abbreviation run, or a bracketed optional
zone.  `flattenSegs` recovers the expression string. -/
inductive Seg where
  | lit (c : Char) : Seg
  | low (s : Str) : Seg
  | box (g : List Seg) : Seg

mutual
/-- The expression text of one segment. -/
def flattenSeg : Seg → Str
  | .lit c => [c]
  | .low s => s
  | .box g => '[' :: (flattenSegs g ++ [']'])

/-- The expression text of a segment list. -/
def flattenSegs : List Seg → Str
  | [] => []
  | sg :: rest => flattenSeg sg ++ flattenSegs rest
end

mutual
/-- The regular-expression body `cmd_expr_to_reg_expr_str` generates for one
segment: escaped `*`/`:` or plain literal, `(RUN)?` for a lowercase run,
`( ... )?` for a bracketed zone. -/
def segBody : Seg → Str
  | .lit c => if c == '*' || c == ':' then ['\\', c] else [c]
  | .low s => '(' :: (upperStr s ++ [')', '?'])
  | .box g => '(' :: (segsBody g ++ [')', '?'])

/-- The regular-expression body for a segment list. -/
def segsBody : List Seg → Str
  | [] => []
  | sg :: rest => segBody sg ++ segsBody rest
end

mutual
/-- The parsed regular-expression item of one segment. -/
def itemsOfSeg : Seg → RItem
  | .lit c => .lit c
  | .low s => .opt (.grp (s.map (fun ch => .lit ch.toUpper)))
  | .box g => .opt (.grp (itemsOfSegs g))

/-- The parsed regular-expression items of a segment list. -/
def itemsOfSegs : List Seg → List RItem
  | [] => []
  | sg :: rest => itemsOfSeg sg :: itemsOfSegs rest
end

/-- The minimal form of a segment list: mandatory characters only. -/
def minSegs : List Seg → Str
  | [] => []
  | .lit c :: rest => c :: minSegs rest
  | .low _ :: rest => minSegs rest
  | .box _ :: rest => minSegs rest

mutual
/-- The maximal form of one segment: everything kept, uppercased, brackets
dropped. -/
def maxSeg : Seg → Str
  | .lit c => [c.toUpper]
  | .low s => upperStr s
  | .box g => maxSegs g

/-- The maximal form of a segment list. -/
def maxSegs : List Seg → Str
  | [] => []
  | sg :: rest => maxSeg sg ++ maxSegs rest
end

/-- Is this segment a lowercase run? -/
def isLowSeg : Seg → Bool
  | .low _ => true
  | _ => false

/-- Does the segment list start with a lowercase run? -/
def headLow : List Seg → Bool
  | .low _ :: _ => true
  | _ => false

mutual
/-- Well-formedness of one segment: a `lit` is a SCPI character that is
neither lowercase nor a bracket; a `low` run is non-empty and all
lowercase; a `box` contains a well-formed list. -/
def segWF : Seg → Bool
  | .lit c => scpiChar c && !c.isLower && !(c == '[') && !(c == ']')
  | .low s => !s.isEmpty && s.all Char.isLower
  | .box g => segsWF g

/-- Well-formedness of a segment list: each segment well-formed and no two
adjacent lowercase runs (runs are maximal in the flattened string). -/
def segsWF : List Seg → Bool
  | [] => true
  | sg :: rest => segWF sg && !(isLowSeg sg && headLow rest) && segsWF rest
end

/-- Does the string *not* start with a lowercase letter?  (The boundary
condition under which a pending lowercase group closes.) -/
def noLowHead : Str → Bool
  | [] => true
  | c :: _ => !c.isLower

/-- Does the string *not* start with `':'`?  (The condition under which the
leading-colon strip of `min_max_cmd` is the identity.) -/
def headNotColon : Str → Bool
  | [] => true
  | c :: _ => !(c == ':')

/-- The segment structure of `SYSTem:ERRor[:NEXT]`, the witness expression
for the pattern/min/max theorem. -/
def wSegs : List Seg :=
  [.lit 'S', .lit 'Y', .lit 'S', .lit 'T', .low ['e', 'm'], .lit ':',
   .lit 'E', .lit 'R', .lit 'R', .low ['o', 'r'],
   .box [.lit ':', .lit 'N', .lit 'E', .lit 'X', .lit 'T']]


/-- Cut a string at its first `' '`: the part before, and the part after the
space (everything when there is no space paired with `[]`). -/
def cutAtSpace (s : Str) : Str × Str :=
  (s.takeWhile (fun c => c != ' '), (s.dropWhile (fun c => c != ' ')).drop 1)

/-- The composite-splitting pipeline as the (amended) specification words it:
strip surrounding whitespace, then surrounding `';'` characters, split on
the separator, drop empty pieces; each piece is a query iff it contains
`'?'` (all `'?'` removed), and is cut at its first `' '` into a trimmed
name and trimmed arguments. -/
def splitCompositeSpec (line : Str) (sep : Str) : List Request :=
  ((splitSep sep (stripSemi (stripWs line))).filter (fun p => p ≠ [])).map
    fun piece =>
      let query := piece.any (fun c => c == '?')
      let body := piece.filter (fun c => c != '?')
      ⟨stripWs (cutAtSpace body).1, stripWs (cutAtSpace body).2, query⟩

end Scpi

namespace Scpi

/-! ## Character-level helper lemmas -/

theorem toNat_ofNat_valid (n : Nat) (h : n.isValidChar) :
    (Char.ofNat n).toNat = n := by
  rw [Char.ofNat, dif_pos h]
  rfl

theorem isLower_iff (c : Char) :
    c.isLower = true ↔ (97 ≤ c.toNat ∧ c.toNat ≤ 122) := by
  unfold Char.isLower
  rw [Bool.and_eq_true, decide_eq_true_iff, decide_eq_true_iff, ge_iff_le,
    UInt32.le_def, UInt32.le_def, BitVec.le_def, BitVec.le_def]
  exact Iff.rfl

theorem toUpper_idem (c : Char) : c.toUpper.toUpper = c.toUpper := by
  unfold Char.toUpper
  by_cases h : 97 ≤ c.toNat ∧ c.toNat ≤ 122
  · rw [if_pos h]
    have hv : (c.toNat - 32).isValidChar := Or.inl (by omega)
    rw [toNat_ofNat_valid _ hv, if_neg (by omega)]
  · rw [if_neg h, if_neg h]

theorem toUpper_toNat (c : Char) :
    c.toUpper.toNat =
      if 97 ≤ c.toNat ∧ c.toNat ≤ 122 then c.toNat - 32 else c.toNat := by
  unfold Char.toUpper
  by_cases h : 97 ≤ c.toNat ∧ c.toNat ≤ 122
  · rw [if_pos h, if_pos h, toNat_ofNat_valid _ (Or.inl (by omega))]
  · rw [if_neg h, if_neg h]

theorem toUpper_of_not_lower (c : Char) (h : c.isLower = false) :
    c.toUpper = c := by
  unfold Char.toUpper
  rw [if_neg]
  intro hc
  rw [show (97 ≤ c.toNat ∧ c.toNat ≤ 122) ↔ c.isLower = true from
    (isLower_iff c).symm] at hc
  simp [h] at hc

theorem toUpper_eq_newline (c : Char) (h : c.toUpper = '\n') : c = '\n' := by
  by_cases hl : 97 ≤ c.toNat ∧ c.toNat ≤ 122
  · exfalso
    have h1 : c.toUpper.toNat = c.toNat - 32 := by
      unfold Char.toUpper
      rw [if_pos hl, toNat_ofNat_valid _ (Or.inl (by omega))]
    rw [h] at h1
    have h2 : ('\n').toNat = 10 := rfl
    omega
  · rwa [show c.toUpper = c from by unfold Char.toUpper; rw [if_neg hl]] at h

theorem charIEq_toUpper_right (a b : Char) :
    charIEq a b.toUpper = charIEq a b := by
  unfold charIEq
  rw [toUpper_idem]

/-! ## Case-insensitivity of the matcher -/

theorem upperStr_eq_nil (s : Str) : upperStr s = [] ↔ s = [] := by
  unfold upperStr
  simp

theorem upperStr_eq_newline (s : Str) : upperStr s = ['\n'] ↔ s = ['\n'] := by
  unfold upperStr
  constructor
  · intro h
    match s with
    | [] => simp at h
    | [c] =>
      simp at h ⊢
      exact toUpper_eq_newline c h
    | _ :: _ :: _ => simp at h
  · intro h
    subst h
    rfl

mutual
theorem remsI_upper (i : RItem) (s : Str) :
    remsI i (upperStr s) = (remsI i s).map upperStr := by
  match i, s with
  | .lit c, [] => rfl
  | .lit c, d :: s =>
    show remsI (.lit c) (d.toUpper :: upperStr s) = _
    rw [remsI, remsI, charIEq_toUpper_right]
    by_cases h : charIEq c d = true
    · rw [if_pos h, if_pos h]; rfl
    · rw [if_neg h, if_neg h]; rfl
  | .grp g, s => rw [remsI, remsI]; exact remsS_upper g s
  | .opt i, s =>
    rw [remsI, remsI, List.map_append, remsI_upper i s]
    rfl
  | .eol, s =>
    rw [remsI, remsI]
    by_cases h : s = [] ∨ s = ['\n']
    · rw [if_pos h, if_pos (by
        rcases h with h | h <;> subst h <;> simp [upperStr_eq_nil, upperStr_eq_newline])]
      rcases h with h | h <;> subst h <;> rfl
    · rw [if_neg h, if_neg (by
        intro hc
        exact h (by rcases hc with hc | hc
                    · exact Or.inl ((upperStr_eq_nil s).mp hc)
                    · exact Or.inr ((upperStr_eq_newline s).mp hc)))]
      rfl

theorem remsS_upper (items : List RItem) (s : Str) :
    remsS items (upperStr s) = (remsS items s).map upperStr := by
  match items, s with
  | [], s => rfl
  | i :: rest, s =>
    rw [remsS, remsS, remsI_upper i s]
    rw [List.flatMap_map]
    rw [List.map_flatMap]
    congr 1
    funext t
    exact remsS_upper rest t
end

theorem reMatches_upper (items : List RItem) (s : Str) :
    reMatches items (upperStr s) = reMatches items s := by
  unfold reMatches
  rw [remsS_upper]
  cases remsS items s <;> rfl

/-! ## C8: the `sanitize_msgs` examples -/

/-- C8: `sanitize_msgs` on `["*rst", "*idn?;*cls"]` with `eol='\n'`,
`sep=';'` returns commands `["*rst","*idn?","*cls"]`, queries `["*idn?"]`,
and message `"*rst\n*idn?\n*cls\n"` under `strict_query=True`, and the
same commands and queries with message `"*rst\n*idn?;*cls\n"` under
`strict_query=False`. -/
theorem sanitize_msgs_examples :
    sanitize_msgs ["*rst".data, "*idn?;*cls".data] "\n".data ";".data true =
      (["*rst".data, "*idn?".data, "*cls".data], ["*idn?".data],
        "*rst\n*idn?\n*cls\n".data) ∧
    sanitize_msgs ["*rst".data, "*idn?;*cls".data] "\n".data ";".data false =
      (["*rst".data, "*idn?".data, "*cls".data], ["*idn?".data],
        "*rst\n*idn?;*cls\n".data) := by
  constructor <;> rfl

/-! ## C10: `contains` versus `get` -/

/-- C10: `text in commands` is exactly `commands.get(text, None) is not
None`; hence with a `None` payload registered under `*IDN`, `contains`
answers `False` for `*idn` although the expression lookup succeeds. -/
theorem contains_iff_get :
    (∀ (β : Type) (c : Commands β) (text : Str),
      c.contains text = ((c.get text none).1).isSome) ∧
    (((Commands.empty (β := Nat)).setitem "*IDN".data none).1.contains
        "*idn".data = false ∧
      (((Commands.empty (β := Nat)).setitem "*IDN".data
            none).1.get_command_expression "*idn".data).1.isOk = true) := by
  refine ⟨fun β c text => rfl, ?_, ?_⟩ <;> rfl


/-! ## C9: `split_line` -/

theorem partitionSpace_eq_cutAtSpace (s : Str) :
    partitionSpace s = cutAtSpace s := by
  induction s with
  | nil => rfl
  | cons c rest ih =>
    unfold partitionSpace cutAtSpace
    by_cases h : (c == ' ') = true
    · have hq : (c != ' ') = false := by
        rw [bne, h]
        rfl
      rw [if_pos h, List.takeWhile_cons, List.dropWhile_cons, hq]
      rfl
    · have hq : (c != ' ') = true := by
        rw [bne, Bool.eq_false_iff.mpr h]
        rfl
      rw [if_neg h, List.takeWhile_cons, List.dropWhile_cons, hq, ih]
      rfl

theorem filterMap_nonempty (l : List Str) (f : Str → Request) :
    (l.filterMap fun x => if x = [] then none else some (f x)) =
      (l.filter (fun x => x ≠ [])).map f := by
  induction l with
  | nil => rfl
  | cons x xs ih =>
    by_cases h : x = []
    · subst h
      simp [ih]
    · simp [List.filterMap_cons, List.filter_cons, h, ih]

/-- C9 counterexample: on `"CMD\t5"` the parser keeps the tab inside the
name (`partition(' ')` only cuts at a space character, not at a whitespace
run), so the token's name is `"CMD\t5"`, not the `"CMD"` the claim's
"split on the first whitespace run" predicts. -/
theorem split_line_tab : 
    split_line "CMD\t5".data ";".data = [⟨"CMD\t5".data, "".data, false⟩] ∧
    "CMD\t5".data ≠ "CMD".data := by
  exact ⟨rfl, by decide⟩

/-- C9 (amended): `split_line` strips surrounding whitespace and then
surrounding literal `';'` characters (independent of the separator
argument), splits on the separator dropping empty pieces, marks a token as
a query iff `'?'` occurs in its piece (all `'?'` removed), cuts each piece
at its first `' '` (only the space character) into trimmed name and
arguments, in source order; and the `"*RST;*IDN?;*CLS"` example has query
flags `[false, true, false]`. -/
theorem split_line_spec :
    (∀ (line sep : Str), split_line line sep = splitCompositeSpec line sep) ∧
    (split_line "*RST;*IDN?;*CLS".data ";".data).map Request.query =
      [false, true, false] := by
  constructor
  · intro line sep
    have h1 : split_line line sep =
        (splitSep sep (stripSemi (stripWs line))).filterMap
          (fun req_str => if req_str = [] then none else
            some ⟨stripWs
                    (partitionSpace (req_str.filter (fun c => c != '?'))).1,
                  stripWs
                    (partitionSpace (req_str.filter (fun c => c != '?'))).2,
                  req_str.any (fun c => c == '?')⟩) := rfl
    rw [h1, filterMap_nonempty]
    unfold splitCompositeSpec
    congr 1
    funext piece
    rw [partitionSpace_eq_cutAtSpace]
  · rfl



/-! ## Association-list and `find?` helpers -/

theorem alistFind_mem {α : Type} (k : Str) (v : α) (l : List (Str × α))
    (h : alistFind k l = some v) : (k, v) ∈ l := by
  induction l with
  | nil => exact absurd h (by simp [alistFind])
  | cons p rest ih =>
    unfold alistFind at h
    by_cases hk : k = p.1
    · rw [if_pos hk] at h
      cases h
      rw [hk, Prod.mk.eta]
      exact List.mem_cons_self p rest
    · rw [if_neg hk] at h
      exact List.mem_cons_of_mem p (ih h)

theorem find?_first {α : Type} (p : α → Bool) (l1 l2 : List α) (a : α)
    (h1 : ∀ x ∈ l1, p x = false) (ha : p a = true) :
    (l1 ++ a :: l2).find? p = some a := by
  induction l1 with
  | nil => rw [List.nil_append, List.find?_cons_of_pos _ ha]
  | cons x xs ih =>
    rw [List.cons_append, List.find?_cons_of_neg _ (by
      rw [h1 x (List.mem_cons_self x xs)]
      exact Bool.false_ne_true)]
    exact ih (fun y hy => h1 y (List.mem_cons_of_mem x hy))

/-! ## C2: cache-miss lookup scans in insertion order -/

/-- C2: on a cache miss (the uppercased text is not a cache key), the lookup
tests the original text against the registered patterns in insertion
order; with `(expr, info)` the first entry whose pattern matches, it
returns `expr` and stores the uppercased text ↦ `expr` in the cache. -/
theorem lookup_first_match (β : Type) (c : Commands β) (text : Str)
    (l1 l2 : List (Str × CmdInfo β)) (expr : Str) (info : CmdInfo β)
    (hmiss : alistFind (upperStr text) c.command_cache = none)
    (hsplit : c.command_expressions = l1 ++ (expr, info) :: l2)
    (hfirst : ∀ p ∈ l1, reMatches p.2.re text = false)
    (hmatch : reMatches info.re text = true) :
    c.get_command_expression text =
      (.ok expr,
       { c with
         command_cache := alistSet (upperStr text) expr c.command_cache }) := by
  have hfind : c.command_expressions.find?
      (fun p => reMatches p.2.re text) = some (expr, info) := by
    rw [hsplit]
    exact find?_first _ l1 l2 (expr, info) hfirst hmatch
  unfold Commands.get_command_expression
  rw [hmiss, hfind]

theorem lookup_first_match_witness :
    wReg.get_command_expression ":ab".data =
      (.ok "ABc".data,
       { wReg with
         command_cache :=
           alistSet (upperStr ":ab".data) "ABc".data wReg.command_cache }) :=
  lookup_first_match Nat wReg ":ab".data [] [("AB".data, wInfoAB)] "ABc".data
    wInfoABc rfl rfl (fun p hp => absurd hp (List.not_mem_nil p)) rfl

/-! ## C6: unmatched lookups fail with `KeyError` carrying the text -/

/-- C6: in a registry with a sound cache, a text no registered pattern
matches makes `get_command_expression`, `get_command` and item access fail
with `KeyError` carrying the original text (the registry unchanged), while
`get` returns the caller's default. -/
theorem lookup_notfound (β : Type) (c : Commands β) (text : Str)
    (default : Option β) (hsound : cacheSound c)
    (hnone : ∀ p ∈ c.command_expressions, reMatches p.2.re text = false) :
    c.get_command_expression text = (.error (.keyError text), c) ∧
    c.get_command text = (.error (.keyError text), c) ∧
    c.getitem text = (.error (.keyError text), c) ∧
    c.get text default = (default, c) := by
  have hmiss : alistFind (upperStr text) c.command_cache = none := by
    cases hfind : alistFind (upperStr text) c.command_cache with
    | none => rfl
    | some e =>
      exfalso
      obtain ⟨info, hinfo, hm⟩ :=
        hsound (upperStr text) e (alistFind_mem _ _ _ hfind)
      rw [reMatches_upper] at hm
      have := hnone (e, info) (alistFind_mem _ _ _ hinfo)
      rw [hm] at this
      cases this
  have hfind : c.command_expressions.find?
      (fun p => reMatches p.2.re text) = none := by
    rw [List.find?_eq_none]
    intro p hp
    rw [hnone p hp]
    exact Bool.false_ne_true
  have h1 : c.get_command_expression text = (.error (.keyError text), c) := by
    unfold Commands.get_command_expression
    rw [hmiss, hfind]
  have h2 : c.get_command text = (.error (.keyError text), c) := by
    unfold Commands.get_command
    rw [h1]
  have h3 : c.getitem text = (.error (.keyError text), c) := by
    unfold Commands.getitem
    rw [h2]
  refine ⟨h1, h2, h3, ?_⟩
  unfold Commands.get
  rw [h3]

theorem lookup_notfound_witness :
    wReg.get_command_expression "IDN".data =
      (.error (.keyError "IDN".data), wReg) ∧
    wReg.get_command "IDN".data = (.error (.keyError "IDN".data), wReg) ∧
    wReg.getitem "IDN".data = (.error (.keyError "IDN".data), wReg) ∧
    wReg.get "IDN".data (some 9) = (some 9, wReg) :=
  lookup_notfound Nat wReg "IDN".data (some 9)
    (fun k e h => absurd h (List.not_mem_nil (k, e)))
    (by decide)



/-! ## More association-list helpers -/

theorem alistFind_set_self {α : Type} (k : Str) (v : α) (l : List (Str × α)) :
    alistFind k (alistSet k v l) = some v := by
  induction l with
  | nil => simp [alistSet, alistFind]
  | cons p rest ih =>
    unfold alistSet
    by_cases hk : k = p.1
    · rw [if_pos hk]
      unfold alistFind
      rw [if_pos hk]
    · rw [if_neg hk]
      unfold alistFind
      rw [if_neg hk]
      exact ih

theorem alistFind_set_other {α : Type} (k k' : Str) (v : α)
    (l : List (Str × α)) (hne : k ≠ k') :
    alistFind k (alistSet k' v l) = alistFind k l := by
  induction l with
  | nil => simp [alistSet, alistFind, hne]
  | cons p rest ih =>
    unfold alistSet
    by_cases hk : k' = p.1
    · rw [if_pos hk]
      unfold alistFind
      rw [if_neg (by rw [← hk]; exact hne), if_neg (by rw [← hk]; exact hne)]
    · rw [if_neg hk]
      unfold alistFind
      by_cases h2 : k = p.1
      · rw [if_pos h2, if_pos h2]
      · rw [if_neg h2, if_neg h2]
        exact ih

theorem alistFind_set_isSome {α : Type} (k k' : Str) (v : α)
    (l : List (Str × α)) (h : alistFind k l ≠ none) :
    alistFind k (alistSet k' v l) ≠ none := by
  by_cases hk : k = k'
  · subst hk
    rw [alistFind_set_self]
    exact Option.some_ne_none v
  · rw [alistFind_set_other k k' v l hk]
    exact h

/-! ## Outcomes of `get_command_expression` -/

theorem gce_map_eq (β : Type) (c : Commands β) (name : Str) :
    (c.get_command_expression name).2.command_expressions =
      c.command_expressions := by
  unfold Commands.get_command_expression
  cases alistFind (upperStr name) c.command_cache with
  | some e => rfl
  | none =>
    cases c.command_expressions.find? (fun p => reMatches p.2.re name) with
    | some p => rfl
    | none => rfl

theorem gce_cache_mono (β : Type) (c : Commands β) (name k : Str)
    (h : alistFind k c.command_cache ≠ none) :
    alistFind k (c.get_command_expression name).2.command_cache ≠ none := by
  unfold Commands.get_command_expression
  cases alistFind (upperStr name) c.command_cache with
  | some e => exact h
  | none =>
    cases c.command_expressions.find? (fun p => reMatches p.2.re name) with
    | some p => exact alistFind_set_isSome _ _ _ _ h
    | none => exact h

theorem gce_ok_cached (β : Type) (c : Commands β) (name expr : Str)
    (h : (c.get_command_expression name).1 = .ok expr) :
    alistFind (upperStr name)
      (c.get_command_expression name).2.command_cache = some expr := by
  unfold Commands.get_command_expression at h ⊢
  cases hc : alistFind (upperStr name) c.command_cache with
  | some e =>
    rw [hc] at h
    cases h
    exact hc
  | none =>
    rw [hc] at h
    cases hf : c.command_expressions.find? (fun p => reMatches p.2.re name) with
    | some p =>
      rw [hf] at h
      cases h
      exact alistFind_set_self _ _ _
    | none =>
      rw [hf] at h
      cases h

/-! ## C3: what deletion purges from the cache -/

/-- C3 counterexample: in `regAB` the cache key `AB` maps to the (still
registered) expression `ABc`; removing the other expression `AB`
nevertheless purges that key, because the purge tests the removed entry's
pattern against the key alone. -/
theorem delitem_purges_foreign_key :
    alistFind "AB".data regAB.command_cache = some "ABc".data ∧
    alistFind "ABc".data
      ((regAB.delitem "AB".data).2).command_expressions ≠ none ∧
    alistFind "AB".data ((regAB.delitem "AB".data).2).command_cache = none := by
  refine ⟨rfl, ?_, rfl⟩
  intro h
  cases h

/-- C3 (amended): `__delitem__` pops the entry and purges exactly those
cache keys the removed entry's own compiled pattern matches — whatever
expression each key maps to; keys the pattern does not match survive
unchanged. -/
theorem delitem_cache_filter (β : Type) (c : Commands β) (expr : Str)
    (info : CmdInfo β)
    (hfind : alistFind expr c.command_expressions = some info) :
    c.delitem expr =
      (.ok (), ⟨alistRemove expr c.command_expressions,
        c.command_cache.filter (fun kv => !(reMatches info.re kv.1))⟩) := by
  unfold Commands.delitem
  rw [hfind]

theorem delitem_cache_filter_witness :
    regAB.delitem "AB".data =
      (.ok (), ⟨alistRemove "AB".data regAB.command_expressions,
        regAB.command_cache.filter
          (fun kv => !(reMatches wInfoAB.re kv.1))⟩) :=
  delitem_cache_filter Nat regAB "AB".data wInfoAB rfl

/-! ## C5: what insertion caches -/

/-- C5 counterexample: inserting `AB` into a registry already holding `ABc`
succeeds, yet the cache key for `AB`'s own minimal form maps to `ABc`,
not to `AB` itself; and inserting `:*OPC` into an empty registry fails
with `KeyError` (its minimal form `*OPC` matches no pattern, its own
included). -/
theorem insert_min_maps_elsewhere :
    ((((Commands.empty (β := Nat)).setitem "ABc".data (some 1)).1).setitem
        "AB".data (some 2)).2 = none ∧
    (min_max_cmd "AB".data).1 = "AB".data ∧
    alistFind (upperStr "AB".data) regAB.command_cache = some "ABc".data ∧
    "ABc".data ≠ "AB".data ∧
    ((Commands.empty (β := Nat)).setitem ":*OPC".data (some 3)).2 =
      some (.keyError "*OPC".data) := by
  exact ⟨rfl, rfl, rfl, by decide, rfl⟩

/-- C5 (amended): whenever `insert(expr, payload)` returns without raising,
the uppercased minimal and maximal forms of `expr` are both cache keys
(each resolved through the lookup path, so each maps to the first
registered expression whose pattern matched it — `expr` itself only when
nothing else matched first), and `expr` is in the backing map. -/
theorem setitem_of_parse (β : Type) (c : Commands β) (e : Str) (v : Option β)
    (re : List RItem) (hp : cmd_expr_to_reg_expr e = some re) :
    c.setitem e v =
      (match Commands.get_command_expression
          (⟨alistSet e ⟨v, re, (min_max_cmd e).1, (min_max_cmd e).2⟩
              c.command_expressions, c.command_cache⟩ : Commands β)
          (min_max_cmd e).1 with
       | (.error err, c2) => (c2, some err)
       | (.ok _, c2) =>
         match c2.get_command_expression (min_max_cmd e).2 with
         | (.error err, c3) => (c3, some err)
         | (.ok _, c3) => (c3, none)) := by
  unfold Commands.setitem
  rw [hp]

theorem insert_caches_min_max (β : Type) (c c' : Commands β) (expr : Str)
    (v : Option β) (h : c.setitem expr v = (c', none)) :
    alistFind (upperStr (min_max_cmd expr).1) c'.command_cache ≠ none ∧
    alistFind (upperStr (min_max_cmd expr).2) c'.command_cache ≠ none ∧
    alistFind expr c'.command_expressions ≠ none := by
  cases hparse : cmd_expr_to_reg_expr expr with
  | none =>
    unfold Commands.setitem at h
    rw [hparse] at h
    have h' : (c, (some PyErr.reError : Option PyErr)) = (c', none) := h
    rw [Prod.mk.injEq] at h'
    exact absurd h'.2 (by simp)
  | some re =>
    rw [setitem_of_parse β c expr v re hparse] at h
    cases hg1 : (⟨alistSet expr ⟨v, re, (min_max_cmd expr).1, (min_max_cmd expr).2⟩
        c.command_expressions, c.command_cache⟩ :
          Commands β).get_command_expression (min_max_cmd expr).1 with
    | mk r1 c2 =>
      rw [hg1] at h
      cases r1 with
      | error e =>
        have h' : (c2, (some e : Option PyErr)) = (c', none) := h
        rw [Prod.mk.injEq] at h'
        exact absurd h'.2 (by simp)
      | ok e1 =>
        have h2 : (match c2.get_command_expression (min_max_cmd expr).2 with
            | (.error err, c3) => (c3, some err)
            | (.ok _, c3) => (c3, none)) = (c', none) := h
        clear h
        cases hg2 : c2.get_command_expression (min_max_cmd expr).2 with
        | mk r2 c3 =>
          rw [hg2] at h2
          cases r2 with
          | error e =>
            have h' : (c3, (some e : Option PyErr)) = (c', none) := h2
            rw [Prod.mk.injEq] at h'
            exact absurd h'.2 (by simp)
          | ok e2 =>
            have h' : (c3, (none : Option PyErr)) = (c', none) := h2
            rw [Prod.mk.injEq] at h'
            have hc' : c' = c3 := h'.1.symm
            subst hc'
            have hmin : alistFind (upperStr (min_max_cmd expr).1)
                c2.command_cache = some e1 := by
              have := gce_ok_cached β _ (min_max_cmd expr).1 e1
                (by rw [hg1])
              rwa [hg1] at this
            refine ⟨?_, ?_, ?_⟩
            · have := gce_cache_mono β c2 (min_max_cmd expr).2
                (upperStr (min_max_cmd expr).1)
                (by rw [hmin]; exact Option.some_ne_none e1)
              rwa [hg2] at this
            · have := gce_ok_cached β c2 (min_max_cmd expr).2 e2 (by rw [hg2])
              rw [hg2] at this
              rw [this]
              exact Option.some_ne_none e2
            · have hmap2 : c'.command_expressions = c2.command_expressions := by
                have := gce_map_eq β c2 (min_max_cmd expr).2
                rwa [hg2] at this
              have hmap1 : c2.command_expressions =
                  alistSet expr ⟨v, re, (min_max_cmd expr).1,
                    (min_max_cmd expr).2⟩ c.command_expressions := by
                have := gce_map_eq β ⟨alistSet expr ⟨v, re, (min_max_cmd expr).1,
                  (min_max_cmd expr).2⟩ c.command_expressions,
                  c.command_cache⟩ (min_max_cmd expr).1
                rwa [hg1] at this
              rw [hmap2, hmap1, alistFind_set_self]
              exact Option.some_ne_none _

theorem insert_caches_min_max_witness :
    alistFind (upperStr (min_max_cmd "AB".data).1) regAB.command_cache ≠ none ∧
    alistFind (upperStr (min_max_cmd "AB".data).2) regAB.command_cache ≠ none ∧
    alistFind "AB".data regAB.command_expressions ≠ none :=
  insert_caches_min_max Nat
    ((Commands.empty (β := Nat)).setitem "ABc".data (some 1)).1 regAB
    "AB".data (some 2) rfl



/-! ## Character classes and parser step equations -/

theorem isUpper_iff (c : Char) :
    c.isUpper = true ↔ (65 ≤ c.toNat ∧ c.toNat ≤ 90) := by
  unfold Char.isUpper
  rw [Bool.and_eq_true, decide_eq_true_iff, decide_eq_true_iff, ge_iff_le,
    UInt32.le_def, UInt32.le_def, BitVec.le_def, BitVec.le_def]
  exact Iff.rfl

theorem isDigit_iff (c : Char) :
    c.isDigit = true ↔ (48 ≤ c.toNat ∧ c.toNat ≤ 57) := by
  unfold Char.isDigit
  rw [Bool.and_eq_true, decide_eq_true_iff, decide_eq_true_iff, ge_iff_le,
    UInt32.le_def, UInt32.le_def, BitVec.le_def, BitVec.le_def]
  exact Iff.rfl

theorem toNat_inj (c d : Char) (h : c.toNat = d.toNat) : c = d := by
  have h2 := congrArg Char.ofNat h
  rwa [Char.ofNat_toNat, Char.ofNat_toNat] at h2

theorem beq_false_of_toNat_ne (c d : Char) (h : c.toNat ≠ d.toNat) :
    (c == d) = false := by
  rw [beq_eq_false_iff_ne]
  intro he
  exact h (by rw [he])

/-- Step equations of `parseRegexAux` for the concrete special heads. -/
theorem parse_step_esc (d : Char) (rest : Str) (cur : List RItem)
    (stk : List (List RItem)) :
    parseRegexAux ('\\' :: d :: rest) cur stk =
      parseRegexAux rest (.lit d :: cur) stk := by
  cases rest <;> rfl

theorem parse_step_open (rest : Str) (cur : List RItem)
    (stk : List (List RItem)) :
    parseRegexAux ('(' :: rest) cur stk =
      parseRegexAux rest [] (cur :: stk) := by
  cases rest <;> rfl

theorem parse_step_close_cons (rest : Str) (cur top : List RItem)
    (stk : List (List RItem)) :
    parseRegexAux (')' :: rest) cur (top :: stk) =
      parseRegexAux rest (.grp cur.reverse :: top) stk := by
  cases rest <;> rfl

theorem parse_step_close_nil (rest : Str) (cur : List RItem) :
    parseRegexAux (')' :: rest) cur [] = none := by
  cases rest <;> rfl

theorem parse_step_quest (rest : Str) (i : RItem) (cur : List RItem)
    (stk : List (List RItem)) :
    parseRegexAux ('?' :: rest) (i :: cur) stk =
      parseRegexAux rest (.opt i :: cur) stk := by
  cases rest <;> rfl

theorem parse_step_dollar (rest : Str) (cur : List RItem)
    (stk : List (List RItem)) :
    parseRegexAux ('$' :: rest) cur stk =
      parseRegexAux rest (.eol :: cur) stk := by
  cases rest <;> rfl

theorem parse_end_cons (cur top : List RItem) (stk : List (List RItem)) :
    parseRegexAux [] cur (top :: stk) = none := rfl

/-- A character that is a digit or an uppercase letter parses as a literal:
it is none of the parser's special characters. -/
theorem parse_step_lit (c : Char) (rest : Str) (cur : List RItem)
    (stk : List (List RItem))
    (h : (48 ≤ c.toNat ∧ c.toNat ≤ 57) ∨ (65 ≤ c.toNat ∧ c.toNat ≤ 90)) :
    parseRegexAux (c :: rest) cur stk =
      parseRegexAux rest (.lit c :: cur) stk := by
  conv_lhs => rw [parseRegexAux.eq_def]
  simp only [beq_false_of_toNat_ne c '\\' (by rw [show ('\\').toNat = 92 from rfl]; omega),
    beq_false_of_toNat_ne c '(' (by rw [show ('(').toNat = 40 from rfl]; omega),
    beq_false_of_toNat_ne c ')' (by rw [show (')').toNat = 41 from rfl]; omega),
    beq_false_of_toNat_ne c '?' (by rw [show ('?').toNat = 63 from rfl]; omega),
    beq_false_of_toNat_ne c '$' (by rw [show ('$').toNat = 36 from rfl]; omega),
    beq_false_of_toNat_ne c '.' (by rw [show ('.').toNat = 46 from rfl]; omega),
    beq_false_of_toNat_ne c '|' (by rw [show ('|').toNat = 124 from rfl]; omega),
    beq_false_of_toNat_ne c '+' (by rw [show ('+').toNat = 43 from rfl]; omega),
    beq_false_of_toNat_ne c '*' (by rw [show ('*').toNat = 42 from rfl]; omega),
    beq_false_of_toNat_ne c '[' (by rw [show ('[').toNat = 91 from rfl]; omega),
    beq_false_of_toNat_ne c ']' (by rw [show (']').toNat = 93 from rfl]; omega),
    beq_false_of_toNat_ne c '^' (by rw [show ('^').toNat = 94 from rfl]; omega),
    beq_false_of_toNat_ne c '\x7b' (by rw [show ('\x7b').toNat = 123 from rfl]; omega),
    beq_false_of_toNat_ne c '\x7d' (by rw [show ('\x7d').toNat = 125 from rfl]; omega)]
  simp only [Bool.false_eq_true, if_false, Bool.or_self, Bool.false_or]

/-- `regBody` on a lowercase head. -/
theorem regBody_lower (c : Char) (cs : Str) (lz : Bool)
    (h : c.isLower = true) :
    regBody (c :: cs) lz =
      (if lz then [] else ['(']) ++ (c.toUpper :: regBody cs true) := by
  conv_lhs => rw [regBody.eq_def]
  simp [h]

/-- `regBody` on a non-lowercase head. -/
theorem regBody_notLower (c : Char) (cs : Str) (lz : Bool)
    (h : c.isLower = false) :
    regBody (c :: cs) lz =
      (if lz then [')', '?'] else []) ++ midFor c ++ regBody cs false := by
  conv_lhs => rw [regBody.eq_def]
  simp [h, midFor, List.append_assoc]

theorem dips_other (c : Char) (cs : Str) (n : Nat) (h1 : (c == '[') = false)
    (h2 : (c == ']') = false) : dips (c :: cs) n = dips cs n := by
  conv_lhs => rw [dips.eq_def]
  simp [h1, h2]

theorem endDepth_other (c : Char) (cs : Str) (n : Nat)
    (h1 : (c == '[') = false) (h2 : (c == ']') = false) :
    endDepth (c :: cs) n = endDepth cs n := by
  conv_lhs => rw [endDepth.eq_def]
  simp [h1, h2]

theorem lower_not_bracket (c : Char) (h : c.isLower = true) :
    (c == '[') = false ∧ (c == ']') = false := by
  rw [isLower_iff] at h
  exact ⟨beq_false_of_toNat_ne c '[' (by rw [show ('[').toNat = 91 from rfl]; omega),
    beq_false_of_toNat_ne c ']' (by rw [show (']').toNat = 93 from rfl]; omega)⟩

/-- A SCPI character that is neither lowercase nor a bracket nor `*`/`:` is
a digit or an uppercase letter. -/
theorem scpiChar_cases (c : Char) (hs : scpiChar c = true)
    (hl : c.isLower = false) (h1 : (c == '[') = false)
    (h2 : (c == ']') = false) (h3 : (c == '*' || c == ':') = false) :
    (48 ≤ c.toNat ∧ c.toNat ≤ 57) ∨ (65 ≤ c.toNat ∧ c.toNat ≤ 90) := by
  by_cases hU : c.isUpper = true
  · exact Or.inr ((isUpper_iff c).mp hU)
  by_cases hD : c.isDigit = true
  · exact Or.inl ((isDigit_iff c).mp hD)
  exfalso
  have hfalse : scpiChar c = false := by
    unfold scpiChar Char.isAlpha
    rw [Bool.eq_false_iff.mpr hU, hl, Bool.eq_false_iff.mpr hD, h1, h2,
      (Bool.or_eq_false_iff.mp h3).1, (Bool.or_eq_false_iff.mp h3).2]
    rfl
  rw [hfalse] at hs
  cases hs



theorem midFor_esc (c : Char) (h1 : (c == '[') = false)
    (h2 : (c == ']') = false) (h3 : (c == '*' || c == ':') = true) :
    midFor c = ['\\', c] := by
  unfold midFor
  rw [h1, h2, h3]
  simp

theorem midFor_lit (c : Char) (h1 : (c == '[') = false)
    (h2 : (c == ']') = false) (h3 : (c == '*' || c == ':') = false) :
    midFor c = [c] := by
  unfold midFor
  rw [h1, h2, h3]
  simp

/-- Closing a pending lowercase group (`)?`) brings the parser stack from
`n + 1` entries back to `n`; with no pending group nothing is emitted. -/
theorem parse_closeLow (lz : Bool) (tail : Str) (cur : List RItem)
    (stk : List (List RItem)) (n : Nat)
    (hlen : stk.length = n + (if lz then 1 else 0)) :
    ∃ cur2 stk2,
      parseRegexAux ((if lz then [')', '?'] else []) ++ tail) cur stk =
        parseRegexAux tail cur2 stk2 ∧ stk2.length = n := by
  cases lz with
  | false => exact ⟨cur, stk, rfl, by simpa using hlen⟩
  | true =>
    cases stk with
    | nil => simp at hlen
    | cons top stk2 =>
      refine ⟨.opt (.grp cur.reverse) :: top, stk2, ?_, by simpa using hlen⟩
      rw [show ((if (true : Bool) then [')', '?'] else []) ++ tail : Str) =
        ')' :: '?' :: tail from rfl]
      rw [parse_step_close_cons, parse_step_quest]

/-- If the bracket depth of the expression tail dips below the available
depth, parsing the generated body fails. -/
theorem parse_regBody_dip (cs : Str) : ∀ (lz : Bool) (cur : List RItem)
    (stk : List (List RItem)) (rest : Str) (n : Nat),
    (∀ ch ∈ cs, scpiChar ch = true) →
    stk.length = n + (if lz then 1 else 0) →
    dips cs n = true →
    parseRegexAux (regBody cs lz ++ rest) cur stk = none := by
  induction cs with
  | nil =>
    intro lz cur stk rest n _ _ hdip
    exact absurd hdip (by rw [show dips [] n = false from rfl]; simp)
  | cons c cs ih =>
    intro lz cur stk rest n hsane hlen hdip
    have hsc : scpiChar c = true := hsane c (List.mem_cons_self c cs)
    have hstail : ∀ ch ∈ cs, scpiChar ch = true :=
      fun ch hch => hsane ch (List.mem_cons_of_mem c hch)
    by_cases hcl : c.isLower = true
    · obtain ⟨hb1, hb2⟩ := lower_not_bracket c hcl
      rw [dips_other c cs n hb1 hb2] at hdip
      rw [regBody_lower c cs lz hcl]
      have hup : (48 ≤ c.toUpper.toNat ∧ c.toUpper.toNat ≤ 57) ∨
          (65 ≤ c.toUpper.toNat ∧ c.toUpper.toNat ≤ 90) := by
        have hl := (isLower_iff c).mp hcl
        rw [toUpper_toNat, if_pos hl]
        omega
      cases lz with
      | true =>
        rw [show ((if (true : Bool) then [] else ['(']) ++
          (c.toUpper :: regBody cs true) : Str) =
            c.toUpper :: regBody cs true from rfl]
        rw [List.cons_append, parse_step_lit c.toUpper _ _ _ hup]
        exact ih true (.lit c.toUpper :: cur) stk rest n hstail
          (by simpa using hlen) hdip
      | false =>
        rw [show ((if (false : Bool) then [] else ['(']) ++
          (c.toUpper :: regBody cs true) : Str) =
            '(' :: c.toUpper :: regBody cs true from rfl]
        rw [List.cons_append, parse_step_open, List.cons_append,
          parse_step_lit c.toUpper _ _ _ hup]
        have hsl : stk.length = n := by simpa using hlen
        exact ih true [.lit c.toUpper] (cur :: stk) rest n hstail
          (by simp [hsl]) hdip
    · have hcl' : c.isLower = false := Bool.eq_false_iff.mpr hcl
      rw [regBody_notLower c cs lz hcl', List.append_assoc, List.append_assoc]
      obtain ⟨cur2, stk2, heq, hlen2⟩ :=
        parse_closeLow lz (midFor c ++ (regBody cs false ++ rest)) cur stk n hlen
      rw [heq]
      by_cases hbr : (c == '[') = true
      · have hc := eq_of_beq hbr
        subst hc
        have hdip' : dips cs (n + 1) = true := hdip
        rw [show midFor '[' = ['('] from rfl, List.singleton_append,
          parse_step_open]
        exact ih false [] (cur2 :: stk2) rest (n + 1) hstail
          (by simp [hlen2]) hdip'
      · by_cases hbr2 : (c == ']') = true
        · have hc := eq_of_beq hbr2
          subst hc
          have hdip' : (n == 0 || dips cs (n - 1)) = true := hdip
          rw [show midFor ']' = [')', '?'] from rfl]
          rw [show (([')', '?'] : Str) ++ (regBody cs false ++ rest)) =
            ')' :: '?' :: (regBody cs false ++ rest) from rfl]
          cases n with
          | zero =>
            have hst : stk2 = [] := List.length_eq_zero.mp hlen2
            subst hst
            rw [parse_step_close_nil]
          | succ m =>
            cases stk2 with
            | nil => simp at hlen2
            | cons top stk3 =>
              rw [parse_step_close_cons, parse_step_quest]
              rw [show ((m + 1 : Nat) == 0) = false from rfl] at hdip'
              rw [Bool.false_or] at hdip'
              exact ih false (.opt (.grp cur2.reverse) :: top) stk3 rest m
                hstail (by simpa using hlen2) hdip'
        · have hbrF : (c == '[') = false := Bool.eq_false_iff.mpr hbr
          have hbr2F : (c == ']') = false := Bool.eq_false_iff.mpr hbr2
          rw [dips_other c cs n hbrF hbr2F] at hdip
          by_cases hesc : (c == '*' || c == ':') = true
          · rw [midFor_esc c hbrF hbr2F hesc]
            rw [show ((['\\', c] : Str) ++ (regBody cs false ++ rest)) =
              '\\' :: c :: (regBody cs false ++ rest) from rfl]
            rw [parse_step_esc]
            exact ih false (.lit c :: cur2) stk2 rest n hstail
              (by simpa using hlen2) hdip
          · have hescF : (c == '*' || c == ':') = false :=
              Bool.eq_false_iff.mpr hesc
            have hlit := scpiChar_cases c hsc hcl' hbrF hbr2F hescF
            rw [midFor_lit c hbrF hbr2F hescF, List.singleton_append,
              parse_step_lit c _ _ _ hlit]
            exact ih false (.lit c :: cur2) stk2 rest n hstail
              (by simpa using hlen2) hdip



/-- With no dip, parsing the generated body consumes it completely, leaving
`endDepth` groups open. -/
theorem parse_regBody_ok (cs : Str) : ∀ (lz : Bool) (cur : List RItem)
    (stk : List (List RItem)) (rest : Str) (n : Nat),
    (∀ ch ∈ cs, scpiChar ch = true) →
    stk.length = n + (if lz then 1 else 0) →
    dips cs n = false →
    ∃ cur2 stk2,
      parseRegexAux (regBody cs lz ++ rest) cur stk =
        parseRegexAux rest cur2 stk2 ∧ stk2.length = endDepth cs n := by
  induction cs with
  | nil =>
    intro lz cur stk rest n _ hlen _
    exact parse_closeLow lz rest cur stk n hlen
  | cons c cs ih =>
    intro lz cur stk rest n hsane hlen hdip
    have hsc : scpiChar c = true := hsane c (List.mem_cons_self c cs)
    have hstail : ∀ ch ∈ cs, scpiChar ch = true :=
      fun ch hch => hsane ch (List.mem_cons_of_mem c hch)
    by_cases hcl : c.isLower = true
    · obtain ⟨hb1, hb2⟩ := lower_not_bracket c hcl
      rw [dips_other c cs n hb1 hb2] at hdip
      rw [regBody_lower c cs lz hcl, endDepth_other c cs n hb1 hb2]
      have hup : (48 ≤ c.toUpper.toNat ∧ c.toUpper.toNat ≤ 57) ∨
          (65 ≤ c.toUpper.toNat ∧ c.toUpper.toNat ≤ 90) := by
        have hl := (isLower_iff c).mp hcl
        rw [toUpper_toNat, if_pos hl]
        omega
      cases lz with
      | true =>
        rw [show ((if (true : Bool) then [] else ['(']) ++
          (c.toUpper :: regBody cs true) : Str) =
            c.toUpper :: regBody cs true from rfl]
        rw [List.cons_append, parse_step_lit c.toUpper _ _ _ hup]
        exact ih true (.lit c.toUpper :: cur) stk rest n hstail
          (by simpa using hlen) hdip
      | false =>
        rw [show ((if (false : Bool) then [] else ['(']) ++
          (c.toUpper :: regBody cs true) : Str) =
            '(' :: c.toUpper :: regBody cs true from rfl]
        rw [List.cons_append, parse_step_open, List.cons_append,
          parse_step_lit c.toUpper _ _ _ hup]
        have hsl : stk.length = n := by simpa using hlen
        exact ih true [.lit c.toUpper] (cur :: stk) rest n hstail
          (by simp [hsl]) hdip
    · have hcl' : c.isLower = false := Bool.eq_false_iff.mpr hcl
      rw [regBody_notLower c cs lz hcl', List.append_assoc, List.append_assoc]
      obtain ⟨cur2, stk2, heq, hlen2⟩ :=
        parse_closeLow lz (midFor c ++ (regBody cs false ++ rest)) cur stk n hlen
      rw [heq]
      by_cases hbr : (c == '[') = true
      · have hc := eq_of_beq hbr
        subst hc
        have hdip' : dips cs (n + 1) = false := hdip
        rw [show midFor '[' = ['('] from rfl, List.singleton_append,
          parse_step_open]
        have hres := ih false [] (cur2 :: stk2) rest (n + 1) hstail
          (by simp [hlen2]) hdip'
        exact hres
      · by_cases hbr2 : (c == ']') = true
        · have hc := eq_of_beq hbr2
          subst hc
          have hdip' : (n == 0 || dips cs (n - 1)) = false := hdip
          rw [show midFor ']' = [')', '?'] from rfl]
          rw [show (([')', '?'] : Str) ++ (regBody cs false ++ rest)) =
            ')' :: '?' :: (regBody cs false ++ rest) from rfl]
          cases n with
          | zero =>
            rw [show ((0 : Nat) == 0) = true from rfl, Bool.true_or] at hdip'
            exact absurd hdip' (by simp)
          | succ m =>
            rw [show ((m + 1 : Nat) == 0) = false from rfl, Bool.false_or]
              at hdip'
            cases stk2 with
            | nil => simp at hlen2
            | cons top stk3 =>
              rw [parse_step_close_cons, parse_step_quest]
              exact ih false (.opt (.grp cur2.reverse) :: top) stk3 rest m
                hstail (by simpa using hlen2) hdip'
        · have hbrF : (c == '[') = false := Bool.eq_false_iff.mpr hbr
          have hbr2F : (c == ']') = false := Bool.eq_false_iff.mpr hbr2
          rw [dips_other c cs n hbrF hbr2F] at hdip
          rw [endDepth_other c cs n hbrF hbr2F]
          by_cases hesc : (c == '*' || c == ':') = true
          · rw [midFor_esc c hbrF hbr2F hesc]
            rw [show ((['\\', c] : Str) ++ (regBody cs false ++ rest)) =
              '\\' :: c :: (regBody cs false ++ rest) from rfl]
            rw [parse_step_esc]
            exact ih false (.lit c :: cur2) stk2 rest n hstail
              (by simpa using hlen2) hdip
          · have hescF : (c == '*' || c == ':') = false :=
              Bool.eq_false_iff.mpr hesc
            have hlit := scpiChar_cases c hsc hcl' hbrF hbr2F hescF
            rw [midFor_lit c hbrF hbr2F hescF, List.singleton_append,
              parse_step_lit c _ _ _ hlit]
            exact ih false (.lit c :: cur2) stk2 rest n hstail
              (by simpa using hlen2) hdip

/-! ## C7: unbalanced brackets at insert time -/

/-- C7 counterexample: the expression `"[)"` has unbalanced brackets, yet
its generated pattern `\:?()$` compiles fine; inserting it raises
`KeyError(")")` from the eager max-form lookup — not a pattern-compilation
error — and the entry (with its wrong pattern) stays stored in the
registry. -/
theorem insert_unbalanced_stored :
    balancedBrackets "[)".data = false ∧
    (cmd_expr_to_reg_expr "[)".data).isSome = true ∧
    ((Commands.empty (β := Nat)).setitem "[)".data (some 3)).2 =
      some (.keyError ")".data) ∧
    alistFind "[)".data
      ((Commands.empty (β := Nat)).setitem "[)".data
          (some 3)).1.command_expressions ≠ none := by
  refine ⟨rfl, rfl, rfl, ?_⟩
  intro h
  cases h

/-- C7 (amended): for every expression over the SCPI grammar alphabet
(letters, digits, `':'`, `'*'`, brackets) whose brackets are unbalanced,
the generated pattern does not compile (`re.error`), the insert fails
fast, and the registry is unchanged — nothing is stored. -/
theorem insert_unbalanced_fails (β : Type) (c : Commands β) (expr : Str)
    (v : Option β) (hsane : ∀ ch ∈ expr, scpiChar ch = true)
    (hunbal : balancedBrackets expr = false) :
    cmd_expr_to_reg_expr expr = none ∧
    c.setitem expr v = (c, some .reError) := by
  have hnone : cmd_expr_to_reg_expr expr = none := by
    unfold cmd_expr_to_reg_expr compileRegex cmd_expr_to_reg_expr_str
    rw [parse_step_esc, parse_step_quest]
    unfold balancedBrackets at hunbal
    by_cases hdip : dips expr 0 = true
    · exact parse_regBody_dip expr false [.opt (.lit ':')] [] ['$'] 0 hsane
        rfl hdip
    · have hdipF : dips expr 0 = false := Bool.eq_false_iff.mpr hdip
      have hd : ¬ endDepth expr 0 = 0 := by
        rw [hdipF] at hunbal
        simp at hunbal
        intro h0
        rw [h0] at hunbal
        simp at hunbal
      obtain ⟨cur2, stk2, heq, hlen2⟩ := parse_regBody_ok expr false
        [.opt (.lit ':')] [] ['$'] 0 hsane rfl hdipF
      rw [heq, parse_step_dollar]
      cases stk2 with
      | nil => exact absurd (by simpa using hlen2.symm) hd
      | cons top stk3 => exact parse_end_cons _ _ _
  refine ⟨hnone, ?_⟩
  unfold Commands.setitem
  rw [hnone]

theorem insert_unbalanced_fails_witness :
    cmd_expr_to_reg_expr "A[B".data = none ∧
    (Commands.empty (β := Nat)).setitem "A[B".data (some 0) =
      (Commands.empty, some .reError) :=
  insert_unbalanced_fails Nat Commands.empty "A[B".data (some 0)
    (by decide) (by decide)



/-! ## C4: the cache-consistency invariant of reachable registries -/

theorem alistFind_isSome_of_mem {α : Type} (k : Str) (v : α)
    (l : List (Str × α)) (h : (k, v) ∈ l) : alistFind k l ≠ none := by
  induction l with
  | nil => cases h
  | cons p rest ih =>
    unfold alistFind
    by_cases hk : k = p.1
    · rw [if_pos hk]
      exact Option.some_ne_none p.2
    · rw [if_neg hk]
      cases h with
      | head => exact absurd rfl hk
      | tail _ hmem => exact ih hmem

theorem mem_alistSet {α : Type} (k : Str) (v : α) (l : List (Str × α))
    (p : Str × α) (h : p ∈ alistSet k v l) : p = (k, v) ∨ p ∈ l := by
  induction l with
  | nil =>
    unfold alistSet at h
    cases h with
    | head => exact Or.inl rfl
    | tail _ hmem => cases hmem
  | cons q rest ih =>
    unfold alistSet at h
    by_cases hk : k = q.1
    · rw [if_pos hk] at h
      cases h with
      | head => exact Or.inl (by rw [hk])
      | tail _ hmem => exact Or.inr (List.mem_cons_of_mem q hmem)
    · rw [if_neg hk] at h
      cases h with
      | head => exact Or.inr (List.mem_cons_self q rest)
      | tail _ hmem =>
        cases ih hmem with
        | inl he => exact Or.inl he
        | inr hm => exact Or.inr (List.mem_cons_of_mem q hm)

theorem mem_alistRemove {α : Type} (k : Str) (l : List (Str × α))
    (p : Str × α) (h : p ∈ alistRemove k l) : p ∈ l := by
  induction l with
  | nil => cases h
  | cons q rest ih =>
    unfold alistRemove at h
    by_cases hk : k = q.1
    · rw [if_pos hk] at h
      exact List.mem_cons_of_mem q h
    · rw [if_neg hk] at h
      cases h with
      | head => exact List.mem_cons_self q rest
      | tail _ hmem => exact List.mem_cons_of_mem q (ih hmem)

theorem alistFind_cons_eq {α : Type} (k k1 : Str) (v1 : α)
    (rest : List (Str × α)) (h : k = k1) :
    alistFind k ((k1, v1) :: rest) = some v1 := by
  show (if k = k1 then some v1 else alistFind k rest) = some v1
  rw [if_pos h]

theorem alistFind_cons_ne {α : Type} (k k1 : Str) (v1 : α)
    (rest : List (Str × α)) (h : k ≠ k1) :
    alistFind k ((k1, v1) :: rest) = alistFind k rest := by
  show (if k = k1 then some v1 else alistFind k rest) = alistFind k rest
  rw [if_neg h]

theorem alistRemove_cons_eq {α : Type} (r k1 : Str) (v1 : α)
    (rest : List (Str × α)) (h : r = k1) :
    alistRemove r ((k1, v1) :: rest) = rest := by
  show (if r = k1 then rest else (k1, v1) :: alistRemove r rest) = rest
  rw [if_pos h]

theorem alistRemove_cons_ne {α : Type} (r k1 : Str) (v1 : α)
    (rest : List (Str × α)) (h : r ≠ k1) :
    alistRemove r ((k1, v1) :: rest) = (k1, v1) :: alistRemove r rest := by
  show (if r = k1 then rest else (k1, v1) :: alistRemove r rest) =
    (k1, v1) :: alistRemove r rest
  rw [if_neg h]

theorem alistFind_remove_other {α : Type} (k r : Str) (l : List (Str × α))
    (hne : k ≠ r) : alistFind k (alistRemove r l) = alistFind k l := by
  induction l with
  | nil => rfl
  | cons q rest ih =>
    obtain ⟨k1, v1⟩ := q
    by_cases hr : r = k1
    · rw [alistRemove_cons_eq r k1 v1 rest hr]
      rw [alistFind_cons_ne k k1 v1 rest (by rw [← hr]; exact hne)]
    · rw [alistRemove_cons_ne r k1 v1 rest hr]
      by_cases hk : k = k1
      · rw [alistFind_cons_eq k k1 v1 _ hk, alistFind_cons_eq k k1 v1 rest hk]
      · rw [alistFind_cons_ne k k1 v1 _ hk, alistFind_cons_ne k k1 v1 rest hk,
          ih]

theorem mem_foldl_alistSet {α : Type} (entries : List (Str × α)) :
    ∀ (l0 : List (Str × α)) (p : Str × α),
    p ∈ entries.foldl (fun m kv => alistSet kv.1 kv.2 m) l0 →
    p ∈ l0 ∨ p ∈ entries := by
  induction entries with
  | nil => exact fun l0 p h => Or.inl h
  | cons q rest ih =>
    intro l0 p h
    rw [List.foldl_cons] at h
    cases ih (alistSet q.1 q.2 l0) p h with
    | inl h0 =>
      cases mem_alistSet q.1 q.2 l0 p h0 with
      | inl he =>
        refine Or.inr ?_
        rw [he, Prod.mk.eta]
        exact List.mem_cons_self q rest
      | inr hm => exact Or.inl hm
    | inr hm => exact Or.inr (List.mem_cons_of_mem q hm)

theorem foldl_alistSet_isSome {α : Type} (entries : List (Str × α)) :
    ∀ (l0 : List (Str × α)) (k : Str), alistFind k l0 ≠ none →
    alistFind k (entries.foldl (fun m kv => alistSet kv.1 kv.2 m) l0) ≠
      none := by
  induction entries with
  | nil => exact fun l0 k h => h
  | cons q rest ih =>
    intro l0 k h
    rw [List.foldl_cons]
    exact ih (alistSet q.1 q.2 l0) k (alistFind_set_isSome k q.1 q.2 l0 h)

theorem foldl_alistSet_isSome_of_mem {α : Type} (entries : List (Str × α)) :
    ∀ (l0 : List (Str × α)) (k : Str) (v : α), (k, v) ∈ entries →
    alistFind k (entries.foldl (fun m kv => alistSet kv.1 kv.2 m) l0) ≠
      none := by
  induction entries with
  | nil => intro _ _ _ h; cases h
  | cons q rest ih =>
    intro l0 k v h
    rw [List.foldl_cons]
    cases h with
    | head =>
      exact foldl_alistSet_isSome rest (alistSet k v l0) k
        (by rw [alistFind_set_self]; exact Option.some_ne_none v)
    | tail _ hmem => exact ih (alistSet q.1 q.2 l0) k v hmem

/-- The lookup path preserves the registry invariant: a new cache entry is
only created for the first matching expression, which is present and whose
(canonical) pattern matches the uppercased key. -/
theorem inv_gce (β : Type) (c : Commands β) (t : Str)
    (h : registryInv c) : registryInv (c.get_command_expression t).2 := by
  obtain ⟨hent, hsound⟩ := h
  unfold Commands.get_command_expression
  cases hc : alistFind (upperStr t) c.command_cache with
  | some e => exact ⟨hent, hsound⟩
  | none =>
    cases hf : c.command_expressions.find? (fun p => reMatches p.2.re t) with
    | none => exact ⟨hent, hsound⟩
    | some p =>
      refine ⟨hent, ?_⟩
      intro k e hmem
      cases mem_alistSet (upperStr t) p.1 c.command_cache (k, e) hmem with
      | inr hold => exact hsound k e hold
      | inl hnew =>
        have hk : k = upperStr t := congrArg Prod.fst hnew
        have he : e = p.1 := congrArg Prod.snd hnew
        subst hk
        subst he
        have hpmem : p ∈ c.command_expressions := List.mem_of_find?_eq_some hf
        have hpmatch := List.find?_some hf
        have hfound : alistFind p.1 c.command_expressions ≠ none :=
          alistFind_isSome_of_mem p.1 p.2 c.command_expressions
            (by rw [Prod.mk.eta]; exact hpmem)
        cases hfind : alistFind p.1 c.command_expressions with
        | none => exact absurd hfind hfound
        | some info =>
          refine ⟨info, rfl, ?_⟩
          have hcanon1 : cmd_expr_to_reg_expr p.1 = some info.re :=
            hent p.1 info (alistFind_mem p.1 info c.command_expressions hfind)
          have hcanon2 : cmd_expr_to_reg_expr p.1 = some p.2.re :=
            hent p.1 p.2 (by rw [Prod.mk.eta]; exact hpmem)
          have hre : info.re = p.2.re := by
            rw [hcanon1] at hcanon2
            exact Option.some.inj hcanon2
          rw [hre, reMatches_upper]
          exact hpmatch



/-- Insertion preserves the registry invariant, whether or not the trailing
lookups raise. -/
theorem inv_setitem (β : Type) (c : Commands β) (e : Str) (v : Option β)
    (h : registryInv c) : registryInv (c.setitem e v).1 := by
  obtain ⟨hent, hsound⟩ := h
  cases hparse : cmd_expr_to_reg_expr e with
  | none =>
    have heq : c.setitem e v = (c, some .reError) := by
      unfold Commands.setitem
      rw [hparse]
    rw [heq]
    exact ⟨hent, hsound⟩
  | some re =>
    have hinv1 : registryInv (⟨alistSet e ⟨v, re, (min_max_cmd e).1,
        (min_max_cmd e).2⟩ c.command_expressions, c.command_cache⟩ :
          Commands β) := by
      constructor
      · intro e' info' hmem
        cases mem_alistSet e ⟨v, re, (min_max_cmd e).1, (min_max_cmd e).2⟩
            c.command_expressions (e', info') hmem with
        | inl hnew =>
          have he : e' = e := congrArg Prod.fst hnew
          have hi : info' = ⟨v, re, (min_max_cmd e).1, (min_max_cmd e).2⟩ :=
            congrArg Prod.snd hnew
          rw [he, hi]
          exact hparse
        | inr hold => exact hent e' info' hold
      · intro k e' hmem
        obtain ⟨info', hfind', hmatch'⟩ := hsound k e' hmem
        by_cases he : e' = e
        · subst he
          refine ⟨⟨v, re, (min_max_cmd e').1, (min_max_cmd e').2⟩,
            alistFind_set_self e' _ c.command_expressions, ?_⟩
          have hcanon : cmd_expr_to_reg_expr e' = some info'.re :=
            hent e' info' (alistFind_mem e' info' c.command_expressions hfind')
          rw [hparse] at hcanon
          have : re = info'.re := Option.some.inj hcanon
          show reMatches re k = true
          rw [this]
          exact hmatch'
        · refine ⟨info', ?_, hmatch'⟩
          rw [alistFind_set_other e' e _ c.command_expressions he]
          exact hfind'
    rw [setitem_of_parse β c e v re hparse]
    cases hg1 : (⟨alistSet e ⟨v, re, (min_max_cmd e).1, (min_max_cmd e).2⟩
        c.command_expressions, c.command_cache⟩ :
          Commands β).get_command_expression (min_max_cmd e).1 with
    | mk r1 c2 =>
      have hinv2 : registryInv c2 := by
        have := inv_gce β _ (min_max_cmd e).1 hinv1
        rwa [hg1] at this
      cases r1 with
      | error err => exact hinv2
      | ok e1 =>
        show registryInv
          (match c2.get_command_expression (min_max_cmd e).2 with
           | (.error err, c3) => (c3, some err)
           | (.ok _, c3) => (c3, none)).1
        cases hg2 : c2.get_command_expression (min_max_cmd e).2 with
        | mk r2 c3 =>
          have hinv3 : registryInv c3 := by
            have := inv_gce β c2 (min_max_cmd e).2 hinv2
            rwa [hg2] at this
          cases r2 with
          | error err => exact hinv3
          | ok e2 => exact hinv3

/-- Deletion preserves the registry invariant: keys of the removed
expression all match its pattern, so the purge removes every one of them;
surviving keys still point to present expressions. -/
theorem inv_delitem (β : Type) (c : Commands β) (e : Str)
    (h : registryInv c) : registryInv (c.delitem e).2 := by
  obtain ⟨hent, hsound⟩ := h
  unfold Commands.delitem
  cases hfind : alistFind e c.command_expressions with
  | none => exact ⟨hent, hsound⟩
  | some info =>
    constructor
    · intro e' info' hmem
      exact hent e' info' (mem_alistRemove e c.command_expressions (e', info')
        hmem)
    · intro k e' hmem
      have hmem' := List.mem_filter.mp hmem
      have hold := hmem'.1
      have hkeep : reMatches info.re k = false := by
        have := hmem'.2
        simp at this
        exact this
      obtain ⟨info', hfind', hmatch'⟩ := hsound k e' hold
      have hne : e' ≠ e := by
        intro he
        subst he
        rw [hfind] at hfind'
        have : info = info' := Option.some.inj hfind'
        rw [← this] at hmatch'
        rw [hmatch'] at hkeep
        cases hkeep
      refine ⟨info', ?_, hmatch'⟩
      rw [alistFind_remove_other e' e c.command_expressions hne]
      exact hfind'

/-- Merging two invariant-satisfying registries preserves the invariant. -/
theorem inv_update (β : Type) (c other : Commands β) (h : registryInv c)
    (h' : registryInv other) : registryInv (c.updateCommands other) := by
  obtain ⟨hent, hsound⟩ := h
  obtain ⟨hent', hsound'⟩ := h'
  have hentM : entriesOk (c.updateCommands other) := by
    intro e info hmem
    cases mem_foldl_alistSet other.command_expressions c.command_expressions
        (e, info) hmem with
    | inl h0 => exact hent e info h0
    | inr h1 => exact hent' e info h1
  refine ⟨hentM, ?_⟩
  intro k e hmem
  have hpresent : alistFind e
      (c.updateCommands other).command_expressions ≠ none := by
    cases mem_foldl_alistSet other.command_cache c.command_cache (k, e)
        hmem with
    | inl h0 =>
      obtain ⟨info', hfind', _⟩ := hsound k e h0
      exact foldl_alistSet_isSome other.command_expressions
        c.command_expressions e
        (by rw [hfind']; exact Option.some_ne_none info')
    | inr h1 =>
      obtain ⟨info', hfind', _⟩ := hsound' k e h1
      exact foldl_alistSet_isSome_of_mem other.command_expressions
        c.command_expressions e info'
        (alistFind_mem e info' other.command_expressions hfind')
  have hmatch : ∃ re, cmd_expr_to_reg_expr e = some re ∧
      reMatches re k = true := by
    cases mem_foldl_alistSet other.command_cache c.command_cache (k, e)
        hmem with
    | inl h0 =>
      obtain ⟨info', hfind', hm⟩ := hsound k e h0
      exact ⟨info'.re,
        hent e info' (alistFind_mem e info' c.command_expressions hfind'), hm⟩
    | inr h1 =>
      obtain ⟨info', hfind', hm⟩ := hsound' k e h1
      exact ⟨info'.re,
        hent' e info' (alistFind_mem e info' other.command_expressions
          hfind'), hm⟩
  cases hfindM : alistFind e (c.updateCommands other).command_expressions with
  | none => exact absurd hfindM hpresent
  | some infoM =>
    obtain ⟨re, hcanon, hm⟩ := hmatch
    refine ⟨infoM, rfl, ?_⟩
    have hcanonM : cmd_expr_to_reg_expr e = some infoM.re :=
      hentM e infoM (alistFind_mem e infoM _ hfindM)
    rw [hcanon] at hcanonM
    rw [← Option.some.inj hcanonM]
    exact hm

/-- Bulk update from a pair list preserves the invariant. -/
theorem inv_updateList (β : Type) (l : List (Str × Option β)) :
    ∀ (c : Commands β), registryInv c → registryInv (c.updateList l).1 := by
  induction l with
  | nil => exact fun c h => h
  | cons p rest ih =>
    intro c h
    unfold Commands.updateList
    cases hset : c.setitem p.1 p.2 with
    | mk c' err =>
      have hinv' : registryInv c' := by
        have := inv_setitem β c p.1 p.2 h
        rwa [hset] at this
      cases err with
      | none => exact ih c' hinv'
      | some e => exact hinv'

theorem get_command_state (β : Type) (c : Commands β) (t : Str) :
    (c.get_command t).2 = (c.get_command_expression t).2 := by
  unfold Commands.get_command
  cases hg : c.get_command_expression t with
  | mk r c' =>
    cases r with
    | error e => rfl
    | ok expr =>
      show (match alistFind expr c'.command_expressions with
        | some info => ((Except.ok info : Except PyErr (CmdInfo β)), c')
        | none => (.error (.keyError expr), c')).2 = (Except.ok expr, c').2
      cases alistFind expr c'.command_expressions with
      | none => rfl
      | some info => rfl

theorem getitem_state (β : Type) (c : Commands β) (t : Str) :
    (c.getitem t).2 = (c.get_command t).2 := by
  unfold Commands.getitem
  cases hg : c.get_command t with
  | mk r c' =>
    cases r with
    | error e => rfl
    | ok info => rfl

theorem get_state (β : Type) (c : Commands β) (t : Str) (d : Option β) :
    (c.get t d).2 = (c.getitem t).2 := by
  unfold Commands.get
  cases hg : c.getitem t with
  | mk r c' =>
    cases r with
    | error e => rfl
    | ok v => rfl

/-- Every reachable registry state satisfies the invariant. -/
theorem reachable_inv (β : Type) (c : Commands β) (h : Reachable β c) :
    registryInv c := by
  induction h with
  | empty =>
    exact ⟨fun e info hmem => absurd hmem (List.not_mem_nil (e, info)),
      fun k e hmem => absurd hmem (List.not_mem_nil (k, e))⟩
  | insert c e v _ ih => exact inv_setitem β c e v ih
  | lookup c t _ ih => exact inv_gce β c t ih
  | getCmd c t _ ih =>
    rw [get_command_state β c t]
    exact inv_gce β c t ih
  | getItem c t _ ih =>
    rw [getitem_state β c t, get_command_state β c t]
    exact inv_gce β c t ih
  | getDefault c t d _ ih =>
    rw [get_state β c t d, getitem_state β c t, get_command_state β c t]
    exact inv_gce β c t ih
  | remove c e _ ih => exact inv_delitem β c e ih
  | merge c other _ _ ih ih' => exact inv_update β c other ih ih'
  | mergeList c l _ ih => exact inv_updateList β l c ih
  | clear c _ _ =>
    exact ⟨fun e info hmem => absurd hmem (List.not_mem_nil (e, info)),
      fun k e hmem => absurd hmem (List.not_mem_nil (k, e))⟩

/-- C4: in every registry state reachable through the public operations
(insert, the lookup family, remove, merge/update, clear), every key of the
abbreviation cache maps to an expression present in the backing map — no
cached key ever points to a removed or absent expression. -/
theorem cache_consistency (β : Type) (c : Commands β) (h : Reachable β c) :
    ∀ k e, (k, e) ∈ c.command_cache →
      alistFind e c.command_expressions ≠ none := by
  intro k e hmem
  obtain ⟨info, hfind, _⟩ := (reachable_inv β c h).2 k e hmem
  rw [hfind]
  exact Option.some_ne_none info

theorem cache_consistency_witness :
    ("AB".data, "ABc".data) ∈ regAB.command_cache ∧
    alistFind "ABc".data regAB.command_expressions ≠ none :=
  ⟨by decide,
   cache_consistency Nat regAB
    (Reachable.insert _ "AB".data (some 2)
      (Reachable.insert _ "ABc".data (some 1) Reachable.empty))
    "AB".data "ABc".data (by decide)⟩



/-! ## C1: the compiled pattern versus the minimal and maximal forms -/

theorem bool_not_true (b : Bool) (h : (!b) = true) : b = false := by
  cases b
  · rfl
  · cases h

theorem sizeOf_tail_lt (sg : Seg) (rest : List Seg) :
    sizeOf rest < sizeOf (sg :: rest) := by
  simp

theorem sizeOf_box_lt (g rest : List Seg) :
    sizeOf g < sizeOf (Seg.box g :: rest) := by
  simp
  omega

theorem segsWF_cons (sg : Seg) (rest : List Seg)
    (h : segsWF (sg :: rest) = true) :
    segWF sg = true ∧ (isLowSeg sg && headLow rest) = false ∧
      segsWF rest = true := by
  have h' : (segWF sg && !(isLowSeg sg && headLow rest) && segsWF rest) =
      true := h
  rw [Bool.and_eq_true, Bool.and_eq_true] at h'
  exact ⟨h'.1.1, bool_not_true _ h'.1.2, h'.2⟩

theorem segWF_lit (c : Char) (h : segWF (.lit c) = true) :
    scpiChar c = true ∧ c.isLower = false ∧ (c == '[') = false ∧
      (c == ']') = false := by
  have h' : (scpiChar c && !c.isLower && !(c == '[') && !(c == ']')) =
      true := h
  rw [Bool.and_eq_true, Bool.and_eq_true, Bool.and_eq_true] at h'
  exact ⟨h'.1.1.1, bool_not_true _ h'.1.1.2, bool_not_true _ h'.1.2,
    bool_not_true _ h'.2⟩

theorem segWF_low (s : Str) (h : segWF (.low s) = true) :
    s ≠ [] ∧ (∀ c ∈ s, c.isLower = true) := by
  have h' : (!s.isEmpty && s.all Char.isLower) = true := h
  rw [Bool.and_eq_true] at h'
  constructor
  · intro he
    rw [he] at h'
    cases h'.1
  · intro c hc
    exact List.all_eq_true.mp h'.2 c hc

theorem segWF_box (g : List Seg) (h : segWF (.box g) = true) :
    segsWF g = true := h

/-- C1 counterexample: `:*OPC` (balanced brackets, leading colon) compiles
to the pattern `\:?\:\*OPC$`, its minimal and maximal forms are both
`*OPC`, and the pattern does not match them: the mandatory escaped colon
of the pattern is exactly what the forms strip. -/
theorem pattern_colon_mismatch :
    (cmd_expr_to_reg_expr ":*OPC".data).isSome = true ∧
    min_max_cmd ":*OPC".data = ("*OPC".data, "*OPC".data) ∧
    reMatches ((cmd_expr_to_reg_expr ":*OPC".data).getD []) "*OPC".data =
      false := by
  exact ⟨rfl, rfl, rfl⟩



theorem midFor_seg (c : Char) (h1 : (c == '[') = false)
    (h2 : (c == ']') = false) : midFor c = segBody (.lit c) := by
  unfold midFor
  rw [h1, h2]
  simp only [Bool.false_eq_true, if_false]
  rfl

/-- Inside an open lowercase zone, a lowercase run is emitted as its
uppercase letters. -/
theorem regBody_lowRun (s : Str) : ∀ (T : Str),
    (∀ c ∈ s, c.isLower = true) →
    regBody (s ++ T) true = upperStr s ++ regBody T true := by
  induction s with
  | nil => intro T _; rfl
  | cons a s' ih =>
    intro T hall
    rw [List.cons_append, regBody_lower a (s' ++ T) true
      (hall a (List.mem_cons_self a s'))]
    rw [ih T (fun c hc => hall c (List.mem_cons_of_mem a hc))]
    rfl

/-- When the next character cannot extend the lowercase zone, the zone
closes with `)?`. -/
theorem regBody_closeLow (T : Str) (h : noLowHead T = true) :
    regBody T true = [')', '?'] ++ regBody T false := by
  cases T with
  | nil => rfl
  | cons c cs =>
    have hlow : c.isLower = false := bool_not_true _ h
    rw [regBody_notLower c cs true hlow, regBody_notLower c cs false hlow]
    rfl

/-- A well-formed segment list that does not start with a lowercase run
flattens to a string that does not start with a lowercase letter. -/
theorem noLowHead_flatten (segs : List Seg) (tail : Str)
    (hwf : segsWF segs = true) (hhl : headLow segs = false)
    (htail : noLowHead tail = true) :
    noLowHead (flattenSegs segs ++ tail) = true := by
  cases segs with
  | nil => exact htail
  | cons sg rest =>
    obtain ⟨hwf1, _, _⟩ := segsWF_cons sg rest hwf
    cases sg with
    | lit c =>
      obtain ⟨_, hlow, _, _⟩ := segWF_lit c hwf1
      show (!c.isLower) = true
      rw [hlow]
      rfl
    | low s => cases hhl
    | box g => rfl

/-- The character walk of `cmd_expr_to_reg_expr_str` over a flattened
well-formed segment list produces exactly the per-segment regular
expression bodies. -/
theorem regBody_segs_aux (n : Nat) : ∀ (segs : List Seg) (tail : Str),
    sizeOf segs < n → segsWF segs = true → noLowHead tail = true →
    regBody (flattenSegs segs ++ tail) false =
      segsBody segs ++ regBody tail false := by
  induction n with
  | zero =>
    intro segs tail hsz _ _
    exact absurd hsz (Nat.not_lt_zero _)
  | succ n ih =>
    intro segs tail hsz hwf htail
    cases segs with
    | nil =>
      rw [show flattenSegs [] = [] from rfl, show segsBody [] = [] from rfl,
        List.nil_append, List.nil_append]
    | cons sg rest =>
      obtain ⟨hwf1, hadj, hwfr⟩ := segsWF_cons sg rest hwf
      have hszr : sizeOf rest < n := by
        have := sizeOf_tail_lt sg rest
        omega
      cases sg with
      | lit c =>
        obtain ⟨_, hlow, hb1, hb2⟩ := segWF_lit c hwf1
        rw [show flattenSegs (.lit c :: rest) = c :: flattenSegs rest from
          rfl]
        rw [List.cons_append,
          regBody_notLower c (flattenSegs rest ++ tail) false hlow,
          ih rest tail hszr hwfr htail,
          show segsBody (.lit c :: rest) = segBody (.lit c) ++ segsBody rest
            from rfl,
          midFor_seg c hb1 hb2]
        simp [List.append_assoc]
      | low s =>
        obtain ⟨hne, hall⟩ := segWF_low s hwf1
        have hhl : headLow rest = false := by
          have h' : (true && headLow rest) = false := hadj
          simpa using h'
        have hnlh : noLowHead (flattenSegs rest ++ tail) = true :=
          noLowHead_flatten rest tail hwfr hhl htail
        cases s with
        | nil => exact absurd rfl hne
        | cons a s' =>
          rw [show flattenSegs (.low (a :: s') :: rest) =
            (a :: s') ++ flattenSegs rest from rfl]
          rw [List.append_assoc, List.cons_append,
            regBody_lower a (s' ++ (flattenSegs rest ++ tail)) false
              (hall a (List.mem_cons_self a s')),
            regBody_lowRun s' (flattenSegs rest ++ tail)
              (fun c hc => hall c (List.mem_cons_of_mem a hc)),
            regBody_closeLow (flattenSegs rest ++ tail) hnlh,
            ih rest tail hszr hwfr htail,
            show segsBody (.low (a :: s') :: rest) =
              ('(' :: (upperStr (a :: s') ++ [')', '?'])) ++ segsBody rest
              from rfl]
          simp [upperStr, List.append_assoc]
      | box g =>
        have hwfg : segsWF g = true := segWF_box g hwf1
        have hszg : sizeOf g < n := by
          have := sizeOf_box_lt g rest
          omega
        rw [show flattenSegs (.box g :: rest) =
          ('[' :: (flattenSegs g ++ [']'])) ++ flattenSegs rest from rfl]
        rw [List.append_assoc, List.cons_append, List.append_assoc,
          List.singleton_append]
        rw [regBody_notLower '['
          (flattenSegs g ++ (']' :: (flattenSegs rest ++ tail))) false
          (by rfl)]
        rw [show (']' :: (flattenSegs rest ++ tail) : Str) =
          [']'] ++ (flattenSegs rest ++ tail) from rfl]
        rw [ih g ([']'] ++ (flattenSegs rest ++ tail)) hszg hwfg (by rfl)]
        rw [show (([']'] : Str) ++ (flattenSegs rest ++ tail)) =
          ']' :: (flattenSegs rest ++ tail) from rfl]
        rw [regBody_notLower ']' (flattenSegs rest ++ tail) false (by rfl)]
        rw [ih rest tail hszr hwfr htail]
        rw [show segsBody (.box g :: rest) =
          ('(' :: (segsBody g ++ [')', '?'])) ++ segsBody rest from rfl]
        rw [show midFor '[' = ['('] from rfl, show midFor ']' = [')', '?']
          from rfl]
        simp [List.append_assoc]

/-- The full regular-expression string of a flattened well-formed segment
list. -/
theorem reg_expr_str_segs (segs : List Seg) (hwf : segsWF segs = true) :
    cmd_expr_to_reg_expr_str (flattenSegs segs) =
      '\\' :: ':' :: '?' :: (segsBody segs ++ ['$']) := by
  unfold cmd_expr_to_reg_expr_str
  have h := regBody_segs_aux (sizeOf segs + 1) segs [] (Nat.lt_succ_self _)
    hwf rfl
  rw [List.append_nil] at h
  rw [h, show regBody [] false = [] from rfl, List.append_nil]



theorem parse_end_nil (cur : List RItem) :
    parseRegexAux [] cur [] = some cur.reverse := rfl

theorem segBody_lit_esc (c : Char) (h : (c == '*' || c == ':') = true) :
    segBody (.lit c) = ['\\', c] := by
  show (if c == '*' || c == ':' then ['\\', c] else [c]) = ['\\', c]
  rw [if_pos h]

theorem segBody_lit_plain (c : Char) (h : (c == '*' || c == ':') = false) :
    segBody (.lit c) = [c] := by
  show (if c == '*' || c == ':' then ['\\', c] else [c]) = [c]
  rw [if_neg (by rw [h]; exact Bool.false_ne_true)]

/-- Parsing an uppercased lowercase run consumes it into literal items. -/
theorem parse_upper_run (s : Str) : ∀ (T : Str) (cur : List RItem)
    (stk : List (List RItem)), (∀ c ∈ s, c.isLower = true) →
    parseRegexAux (upperStr s ++ T) cur stk =
      parseRegexAux T
        ((s.map (fun ch => RItem.lit ch.toUpper)).reverse ++ cur) stk := by
  induction s with
  | nil => intro T cur stk _; rfl
  | cons a s' ih =>
    intro T cur stk hall
    have hup : (48 ≤ a.toUpper.toNat ∧ a.toUpper.toNat ≤ 57) ∨
        (65 ≤ a.toUpper.toNat ∧ a.toUpper.toNat ≤ 90) := by
      have hl := (isLower_iff a).mp (hall a (List.mem_cons_self a s'))
      rw [toUpper_toNat, if_pos hl]
      omega
    rw [show upperStr (a :: s') = a.toUpper :: upperStr s' from rfl,
      List.cons_append, parse_step_lit a.toUpper _ _ _ hup,
      ih T (.lit a.toUpper :: cur) stk
        (fun c hc => hall c (List.mem_cons_of_mem a hc))]
    simp [List.append_assoc]

/-- Parsing the generated segment bodies yields exactly the per-segment
items (accumulated in reverse). -/
theorem parse_segsBody_aux (n : Nat) : ∀ (segs : List Seg) (rest : Str)
    (cur : List RItem) (stk : List (List RItem)),
    sizeOf segs < n → segsWF segs = true →
    parseRegexAux (segsBody segs ++ rest) cur stk =
      parseRegexAux rest ((itemsOfSegs segs).reverse ++ cur) stk := by
  induction n with
  | zero =>
    intro segs rest cur stk hsz _
    exact absurd hsz (Nat.not_lt_zero _)
  | succ n ih =>
    intro segs rest cur stk hsz hwf
    cases segs with
    | nil => rfl
    | cons sg rest' =>
      obtain ⟨hwf1, _, hwfr⟩ := segsWF_cons sg rest' hwf
      have hszr : sizeOf rest' < n := by
        have := sizeOf_tail_lt sg rest'
        omega
      cases sg with
      | lit c =>
        obtain ⟨hsc, hlow, hb1, hb2⟩ := segWF_lit c hwf1
        rw [show segsBody (.lit c :: rest') =
          segBody (.lit c) ++ segsBody rest' from rfl, List.append_assoc]
        by_cases hesc : (c == '*' || c == ':') = true
        · rw [segBody_lit_esc c hesc]
          rw [show ((['\\', c] : Str) ++ (segsBody rest' ++ rest)) =
            '\\' :: c :: (segsBody rest' ++ rest) from rfl, parse_step_esc,
            ih rest' rest (.lit c :: cur) stk hszr hwfr,
            show itemsOfSegs (.lit c :: rest') =
              .lit c :: itemsOfSegs rest' from rfl]
          simp [List.reverse_cons, List.append_assoc]
        · have hescF : (c == '*' || c == ':') = false :=
            Bool.eq_false_iff.mpr hesc
          have hlit := scpiChar_cases c hsc hlow hb1 hb2 hescF
          rw [segBody_lit_plain c hescF, List.singleton_append,
            parse_step_lit c _ _ _ hlit,
            ih rest' rest (.lit c :: cur) stk hszr hwfr,
            show itemsOfSegs (.lit c :: rest') =
              .lit c :: itemsOfSegs rest' from rfl]
          simp [List.reverse_cons, List.append_assoc]
      | low s =>
        obtain ⟨_, hall⟩ := segWF_low s hwf1
        rw [show segsBody (.low s :: rest') =
          ('(' :: (upperStr s ++ [')', '?'])) ++ segsBody rest' from rfl,
          List.cons_append, List.cons_append, parse_step_open,
          List.append_assoc, List.append_assoc,
          parse_upper_run s _ [] (cur :: stk) hall,
          show (([')', '?'] : Str) ++ (segsBody rest' ++ rest)) =
            ')' :: '?' :: (segsBody rest' ++ rest) from rfl,
          parse_step_close_cons, parse_step_quest,
          ih rest' rest _ stk hszr hwfr,
          show itemsOfSegs (.low s :: rest') =
            .opt (.grp (s.map (fun ch => RItem.lit ch.toUpper))) ::
              itemsOfSegs rest' from rfl]
        simp [List.reverse_cons, List.append_assoc]
      | box g =>
        have hwfg : segsWF g = true := segWF_box g hwf1
        have hszg : sizeOf g < n := by
          have := sizeOf_box_lt g rest'
          omega
        rw [show segsBody (.box g :: rest') =
          ('(' :: (segsBody g ++ [')', '?'])) ++ segsBody rest' from rfl,
          List.cons_append, List.cons_append, parse_step_open,
          List.append_assoc, List.append_assoc,
          ih g ([')', '?'] ++ (segsBody rest' ++ rest)) [] (cur :: stk)
            hszg hwfg,
          show (([')', '?'] : Str) ++ (segsBody rest' ++ rest)) =
            ')' :: '?' :: (segsBody rest' ++ rest) from rfl,
          parse_step_close_cons, parse_step_quest,
          ih rest' rest _ stk hszr hwfr,
          show itemsOfSegs (.box g :: rest') =
            .opt (.grp (itemsOfSegs g)) :: itemsOfSegs rest' from rfl]
        simp [List.reverse_cons, List.append_assoc]

/-- The compiled pattern of a flattened well-formed segment list: an
optional leading colon, the per-segment items, and the end anchor. -/
theorem compile_segs (segs : List Seg) (hwf : segsWF segs = true) :
    cmd_expr_to_reg_expr (flattenSegs segs) =
      some (.opt (.lit ':') :: (itemsOfSegs segs ++ [.eol])) := by
  unfold cmd_expr_to_reg_expr compileRegex
  rw [reg_expr_str_segs segs hwf, parse_step_esc, parse_step_quest,
    parse_segsBody_aux (sizeOf segs + 1) segs ['$'] [.opt (.lit ':')] []
      (Nat.lt_succ_self _) hwf,
    parse_step_dollar, parse_end_nil]
  simp [List.reverse_append, List.append_assoc]



theorem charIEq_refl (c : Char) : charIEq c c = true := by
  unfold charIEq
  simp

theorem remsS_append (A B : List RItem) : ∀ s,
    remsS (A ++ B) s = (remsS A s).flatMap (remsS B) := by
  induction A with
  | nil =>
    intro s
    rw [List.nil_append, show remsS [] s = [s] from rfl]
    simp
  | cons i A' ih =>
    intro s
    rw [List.cons_append, remsS, remsS, List.flatMap_assoc]
    congr 1
    funext t
    exact ih t

/-- The pattern items of a segment list accept the minimal form: every
optional item is skipped, every mandatory literal matches itself. -/
theorem rems_min (segs : List Seg) : ∀ s,
    s ∈ remsS (itemsOfSegs segs) (minSegs segs ++ s) := by
  induction segs with
  | nil =>
    intro s
    show s ∈ [s]
    exact List.mem_singleton.mpr rfl
  | cons sg rest ih =>
    intro s
    cases sg with
    | lit c =>
      rw [show itemsOfSegs (.lit c :: rest) = .lit c :: itemsOfSegs rest
        from rfl, show minSegs (.lit c :: rest) = c :: minSegs rest from rfl,
        List.cons_append, remsS,
        show remsI (.lit c) (c :: (minSegs rest ++ s)) =
          if charIEq c c then [minSegs rest ++ s] else [] from rfl,
        charIEq_refl c, if_pos rfl]
      simp only [List.flatMap_cons, List.flatMap_nil, List.append_nil]
      exact ih s
    | low s' =>
      rw [show itemsOfSegs (.low s' :: rest) =
        .opt (.grp (s'.map (fun ch => RItem.lit ch.toUpper))) ::
          itemsOfSegs rest from rfl,
        show minSegs (.low s' :: rest) = minSegs rest from rfl, remsS]
      apply List.mem_flatMap.mpr
      refine ⟨minSegs rest ++ s, ?_, ih s⟩
      rw [remsI]
      exact List.mem_append_right _ (List.mem_singleton.mpr rfl)
    | box g =>
      rw [show itemsOfSegs (.box g :: rest) =
        .opt (.grp (itemsOfSegs g)) :: itemsOfSegs rest from rfl,
        show minSegs (.box g :: rest) = minSegs rest from rfl, remsS]
      apply List.mem_flatMap.mpr
      refine ⟨minSegs rest ++ s, ?_, ih s⟩
      rw [remsI]
      exact List.mem_append_right _ (List.mem_singleton.mpr rfl)

/-- Literal items built from a lowercase run accept its uppercased text. -/
theorem upper_run_rems (s : Str) : ∀ t,
    t ∈ remsS (s.map (fun ch => RItem.lit ch.toUpper)) (upperStr s ++ t) := by
  induction s with
  | nil =>
    intro t
    show t ∈ [t]
    exact List.mem_singleton.mpr rfl
  | cons a s' ih =>
    intro t
    rw [show (a :: s').map (fun ch => RItem.lit ch.toUpper) =
      .lit a.toUpper :: s'.map (fun ch => RItem.lit ch.toUpper) from rfl,
      show upperStr (a :: s') ++ t = a.toUpper :: (upperStr s' ++ t)
        from rfl, remsS,
      show remsI (.lit a.toUpper) (a.toUpper :: (upperStr s' ++ t)) =
        if charIEq a.toUpper a.toUpper then [upperStr s' ++ t] else []
        from rfl, charIEq_refl, if_pos rfl]
    simp only [List.flatMap_cons, List.flatMap_nil, List.append_nil]
    exact ih t

/-- The pattern items of a segment list accept the maximal form: every
optional group is entered and matched in full. -/
theorem rems_max (n : Nat) : ∀ (segs : List Seg) (t : Str),
    sizeOf segs < n →
    t ∈ remsS (itemsOfSegs segs) (maxSegs segs ++ t) := by
  induction n with
  | zero =>
    intro segs t hsz
    exact absurd hsz (Nat.not_lt_zero _)
  | succ n ih =>
    intro segs t hsz
    cases segs with
    | nil =>
      show t ∈ [t]
      exact List.mem_singleton.mpr rfl
    | cons sg rest =>
      have hszr : sizeOf rest < n := by
        have := sizeOf_tail_lt sg rest
        omega
      cases sg with
      | lit c =>
        rw [show itemsOfSegs (.lit c :: rest) = .lit c :: itemsOfSegs rest
          from rfl,
          show maxSegs (.lit c :: rest) ++ t =
            c.toUpper :: (maxSegs rest ++ t) from by
              rw [show maxSegs (.lit c :: rest) =
                [c.toUpper] ++ maxSegs rest from rfl]
              simp,
          remsS,
          show remsI (.lit c) (c.toUpper :: (maxSegs rest ++ t)) =
            if charIEq c c.toUpper then [maxSegs rest ++ t] else []
            from rfl,
          charIEq_toUpper_right c c, charIEq_refl, if_pos rfl]
        simp only [List.flatMap_cons, List.flatMap_nil, List.append_nil]
        exact ih rest t hszr
      | low s' =>
        rw [show itemsOfSegs (.low s' :: rest) =
          .opt (.grp (s'.map (fun ch => RItem.lit ch.toUpper))) ::
            itemsOfSegs rest from rfl,
          show maxSegs (.low s' :: rest) ++ t =
            upperStr s' ++ (maxSegs rest ++ t) from by
              rw [show maxSegs (.low s' :: rest) =
                upperStr s' ++ maxSegs rest from rfl]
              simp,
          remsS]
        apply List.mem_flatMap.mpr
        refine ⟨maxSegs rest ++ t, ?_, ih rest t hszr⟩
        rw [remsI]
        apply List.mem_append_left
        rw [remsI]
        exact upper_run_rems s' (maxSegs rest ++ t)
      | box g =>
        have hszg : sizeOf g < n := by
          have := sizeOf_box_lt g rest
          omega
        rw [show itemsOfSegs (.box g :: rest) =
          .opt (.grp (itemsOfSegs g)) :: itemsOfSegs rest from rfl,
          show maxSegs (.box g :: rest) ++ t =
            maxSegs g ++ (maxSegs rest ++ t) from by
              rw [show maxSegs (.box g :: rest) = maxSegs g ++ maxSegs rest
                from rfl]
              simp,
          remsS]
        apply List.mem_flatMap.mpr
        refine ⟨maxSegs rest ++ t, ?_, ih rest t hszr⟩
        rw [remsI]
        apply List.mem_append_left
        rw [remsI]
        exact ih g (maxSegs rest ++ t) hszg

/-- A match witness that consumes the whole text makes the full pattern
(optional leading colon, items, end anchor) accept the text. -/
theorem reMatches_of_empty_rem (X : List RItem) (w : Str)
    (h : [] ∈ remsS X w) :
    reMatches (.opt (.lit ':') :: (X ++ [.eol])) w = true := by
  have hmem : ([] : Str) ∈ remsS (.opt (.lit ':') :: (X ++ [.eol])) w := by
    rw [remsS]
    apply List.mem_flatMap.mpr
    refine ⟨w, ?_, ?_⟩
    · rw [remsI]
      exact List.mem_append_right _ (List.mem_singleton.mpr rfl)
    · rw [remsS_append]
      apply List.mem_flatMap.mpr
      refine ⟨[], h, ?_⟩
      show ([] : Str) ∈ [[]]
      exact List.mem_singleton.mpr rfl
  unfold reMatches
  cases hrem : remsS (.opt (.lit ':') :: (X ++ [.eol])) w with
  | nil =>
    rw [hrem] at hmem
    cases hmem
  | cons a l => rfl



theorem minCmdAux_lower (c : Char) (cs : Str) (opt : Int)
    (h : c.isLower = true) : minCmdAux (c :: cs) opt = minCmdAux cs opt := by
  conv_lhs => rw [minCmdAux.eq_def]
  simp [h]

theorem minCmdAux_other (c : Char) (cs : Str) (opt : Int)
    (hlow : c.isLower = false) (h1 : (c == '[') = false)
    (h2 : (c == ']') = false) :
    minCmdAux (c :: cs) opt =
      (if opt = 0 then [c] else []) ++ minCmdAux cs opt := by
  conv_lhs => rw [minCmdAux.eq_def]
  simp only [hlow, h1, h2, Bool.false_eq_true, if_false]
  by_cases ho : opt = 0
  · rw [if_neg (by rw [ho]; exact fun hc => hc rfl), if_pos ho]
    rfl
  · rw [if_pos ho, if_neg ho]
    rfl

theorem minCmdAux_skipRun (s : Str) : ∀ (T : Str) (opt : Int),
    (∀ c ∈ s, c.isLower = true) →
    minCmdAux (s ++ T) opt = minCmdAux T opt := by
  induction s with
  | nil => intro T opt _; rfl
  | cons a s' ih =>
    intro T opt hall
    rw [List.cons_append,
      minCmdAux_lower a (s' ++ T) opt (hall a (List.mem_cons_self a s')),
      ih T opt (fun c hc => hall c (List.mem_cons_of_mem a hc))]

/-- The `result_min` loop of `min_max_cmd` over a flattened well-formed
segment list: at bracket depth 0 it emits the mandatory characters, at
positive depth nothing. -/
theorem minCmdAux_segs (n : Nat) : ∀ (segs : List Seg) (tail : Str)
    (opt : Int), sizeOf segs < n → segsWF segs = true → 0 ≤ opt →
    minCmdAux (flattenSegs segs ++ tail) opt =
      (if opt = 0 then minSegs segs else []) ++ minCmdAux tail opt := by
  induction n with
  | zero =>
    intro segs tail opt hsz _ _
    exact absurd hsz (Nat.not_lt_zero _)
  | succ n ih =>
    intro segs tail opt hsz hwf hopt
    cases segs with
    | nil =>
      rw [show flattenSegs [] = [] from rfl,
        show minSegs [] = [] from rfl, List.nil_append]
      by_cases ho : opt = 0 <;> simp [ho]
    | cons sg rest =>
      obtain ⟨hwf1, _, hwfr⟩ := segsWF_cons sg rest hwf
      have hszr : sizeOf rest < n := by
        have := sizeOf_tail_lt sg rest
        omega
      cases sg with
      | lit c =>
        obtain ⟨_, hlow, hb1, hb2⟩ := segWF_lit c hwf1
        rw [show flattenSegs (.lit c :: rest) = c :: flattenSegs rest
          from rfl, List.cons_append,
          minCmdAux_other c (flattenSegs rest ++ tail) opt hlow hb1 hb2,
          ih rest tail opt hszr hwfr hopt,
          show minSegs (.lit c :: rest) = c :: minSegs rest from rfl]
        by_cases ho : opt = 0 <;> simp [ho]
      | low s =>
        obtain ⟨_, hall⟩ := segWF_low s hwf1
        rw [show flattenSegs (.low s :: rest) = s ++ flattenSegs rest
          from rfl, List.append_assoc,
          minCmdAux_skipRun s (flattenSegs rest ++ tail) opt hall,
          ih rest tail opt hszr hwfr hopt,
          show minSegs (.low s :: rest) = minSegs rest from rfl]
      | box g =>
        have hwfg : segsWF g = true := segWF_box g hwf1
        have hszg : sizeOf g < n := by
          have := sizeOf_box_lt g rest
          omega
        rw [show flattenSegs (.box g :: rest) =
          ('[' :: (flattenSegs g ++ [']'])) ++ flattenSegs rest from rfl,
          List.append_assoc, List.cons_append, List.append_assoc,
          List.singleton_append,
          show minCmdAux ('[' :: (flattenSegs g ++
            (']' :: (flattenSegs rest ++ tail)))) opt =
            minCmdAux (flattenSegs g ++ (']' :: (flattenSegs rest ++ tail)))
              (opt + 1) from rfl,
          ih g (']' :: (flattenSegs rest ++ tail)) (opt + 1) hszg hwfg
            (by omega),
          if_neg (by omega : ¬(opt + 1 = 0)), List.nil_append,
          show minCmdAux (']' :: (flattenSegs rest ++ tail)) (opt + 1) =
            minCmdAux (flattenSegs rest ++ tail) (opt + 1 - 1) from rfl,
          show opt + 1 - 1 = opt from by omega,
          ih rest tail opt hszr hwfr hopt,
          show minSegs (.box g :: rest) = minSegs rest from rfl]

/-- The `result_max` computation (drop brackets, uppercase) over a
flattened well-formed segment list. -/
theorem maxSegs_filter (n : Nat) : ∀ (segs : List Seg),
    sizeOf segs < n → segsWF segs = true →
    upperStr ((flattenSegs segs).filter (fun c => c != '[' && c != ']')) =
      maxSegs segs := by
  induction n with
  | zero =>
    intro segs hsz _
    exact absurd hsz (Nat.not_lt_zero _)
  | succ n ih =>
    intro segs hsz hwf
    cases segs with
    | nil => rfl
    | cons sg rest =>
      obtain ⟨hwf1, _, hwfr⟩ := segsWF_cons sg rest hwf
      have hszr : sizeOf rest < n := by
        have := sizeOf_tail_lt sg rest
        omega
      cases sg with
      | lit c =>
        obtain ⟨_, _, hb1, hb2⟩ := segWF_lit c hwf1
        rw [show flattenSegs (.lit c :: rest) = c :: flattenSegs rest
          from rfl, List.filter_cons,
          if_pos (by rw [Bool.and_eq_true, bne, bne, hb1, hb2]
                     exact ⟨rfl, rfl⟩),
          show maxSegs (.lit c :: rest) = c.toUpper :: maxSegs rest from rfl]
        rw [show upperStr (c :: (flattenSegs rest).filter
            (fun c => c != '[' && c != ']')) =
          c.toUpper :: upperStr ((flattenSegs rest).filter
            (fun c => c != '[' && c != ']')) from rfl,
          ih rest hszr hwfr]
      | low s =>
        obtain ⟨_, hall⟩ := segWF_low s hwf1
        have hfs : s.filter (fun c => c != '[' && c != ']') = s := by
          apply List.filter_eq_self.mpr
          intro c hc
          obtain ⟨hc1, hc2⟩ := lower_not_bracket c (hall c hc)
          rw [Bool.and_eq_true, bne, bne, hc1, hc2]
          exact ⟨rfl, rfl⟩
        rw [show flattenSegs (.low s :: rest) = s ++ flattenSegs rest
          from rfl, List.filter_append, hfs,
          show maxSegs (.low s :: rest) = upperStr s ++ maxSegs rest
            from rfl]
        unfold upperStr
        rw [List.map_append]
        rw [show List.map Char.toUpper ((flattenSegs rest).filter
            (fun c => c != '[' && c != ']')) =
          upperStr ((flattenSegs rest).filter
            (fun c => c != '[' && c != ']')) from rfl,
          ih rest hszr hwfr]
      | box g =>
        have hwfg : segsWF g = true := segWF_box g hwf1
        have hszg : sizeOf g < n := by
          have := sizeOf_box_lt g rest
          omega
        rw [show flattenSegs (.box g :: rest) =
          '[' :: ((flattenSegs g ++ [']']) ++ flattenSegs rest) from by
            rw [show flattenSegs (.box g :: rest) =
              ('[' :: (flattenSegs g ++ [']'])) ++ flattenSegs rest
              from rfl]
            rfl,
          List.filter_cons, if_neg (by decide), List.filter_append,
          List.filter_append,
          show ([']'] : Str).filter (fun c => c != '[' && c != ']') = []
            from rfl,
          List.append_nil,
          show maxSegs (.box g :: rest) = maxSegs g ++ maxSegs rest from rfl]
        unfold upperStr
        rw [List.map_append]
        rw [show List.map Char.toUpper ((flattenSegs g).filter
            (fun c => c != '[' && c != ']')) =
          upperStr ((flattenSegs g).filter
            (fun c => c != '[' && c != ']')) from rfl,
          show List.map Char.toUpper ((flattenSegs rest).filter
            (fun c => c != '[' && c != ']')) =
          upperStr ((flattenSegs rest).filter
            (fun c => c != '[' && c != ']')) from rfl,
          ih g hszg hwfg, ih rest hszr hwfr]

theorem lstripColon_id (s : Str) (h : headNotColon s = true) :
    lstripColon s = s := by
  cases s with
  | nil => rfl
  | cons c cs =>
    have hc : (c == ':') = false := bool_not_true _ h
    unfold lstripColon
    rw [List.dropWhile_cons, hc]
    simp



/-- C1 (amended): for every well-formed SCPI command expression — a
sequence of mandatory characters, lowercase abbreviation runs and
(arbitrarily nested) bracketed optional zones, presented by its segment
structure `segs` — whose minimal and maximal forms do not begin with a
(stripped) leading `':'`, the expression compiles, and the compiled
pattern matches both the minimal and the maximal form computed by
`min_max_cmd`.  (Expressions whose raw forms start with `':'`, such as
`:*OPC`, are excluded: their pattern keeps the colon mandatory while the
forms strip it.) -/
theorem pattern_matches_min_max (segs : List Seg) (hwf : segsWF segs = true)
    (hmin : headNotColon (minSegs segs) = true)
    (hmax : headNotColon (maxSegs segs) = true) :
    ∃ items, cmd_expr_to_reg_expr (flattenSegs segs) = some items ∧
      reMatches items (min_max_cmd (flattenSegs segs)).1 = true ∧
      reMatches items (min_max_cmd (flattenSegs segs)).2 = true := by
  have hD1 : minCmdAux (flattenSegs segs) 0 = minSegs segs := by
    have h := minCmdAux_segs (sizeOf segs + 1) segs [] 0 (Nat.lt_succ_self _)
      hwf (le_refl 0)
    rw [List.append_nil] at h
    rw [h, if_pos rfl, show minCmdAux [] 0 = [] from rfl, List.append_nil]
  have hD2 : upperStr ((flattenSegs segs).filter
      (fun c => c != '[' && c != ']')) = maxSegs segs :=
    maxSegs_filter (sizeOf segs + 1) segs (Nat.lt_succ_self _) hwf
  have hmm : min_max_cmd (flattenSegs segs) =
      (minSegs segs, maxSegs segs) := by
    unfold min_max_cmd
    rw [hD1, hD2, lstripColon_id _ hmin, lstripColon_id _ hmax]
  refine ⟨.opt (.lit ':') :: (itemsOfSegs segs ++ [.eol]),
    compile_segs segs hwf, ?_, ?_⟩
  · rw [hmm]
    apply reMatches_of_empty_rem
    have h := rems_min segs []
    rwa [List.append_nil] at h
  · rw [hmm]
    apply reMatches_of_empty_rem
    have h := rems_max (sizeOf segs + 1) segs [] (Nat.lt_succ_self _)
    rwa [List.append_nil] at h

theorem pattern_matches_min_max_witness :
    flattenSegs wSegs = "SYSTem:ERRor[:NEXT]".data ∧
    (∃ items, cmd_expr_to_reg_expr (flattenSegs wSegs) = some items ∧
      reMatches items (min_max_cmd (flattenSegs wSegs)).1 = true ∧
      reMatches items (min_max_cmd (flattenSegs wSegs)).2 = true) :=
  ⟨rfl, pattern_matches_min_max wSegs rfl rfl rfl⟩


end Scpi
